import Mathlib

/-!
Verification development for the `utxo-relayer` transaction bundler.

The Rust source is shallowly embedded as executable Lean definitions:

* `U256` values (amounts, prices, input identifiers) are modelled as `Nat`.
  The `uint`-crate arithmetic used by `ethers::types::U256` panics on
  overflow in every build profile, so each arithmetic step that can
  overflow 256 bits is guarded explicitly and a panic is modelled as
  `Option.none`.  Likewise every `panic!` / `expect` / `assert!` branch of
  the source is modelled as `none`.
* `std::collections::BTreeMap<U256, Vec<Arc<T>>>` (the by-gas-price index)
  is modelled as an association list sorted in strictly ascending key
  order, one bucket of transactions per key.  `HashMap<U256, Arc<T>>`
  (the by-input index) is modelled as an association list with unique
  keys; the source never iterates it, so only lookup, insert and remove
  matter.
* Signatures are carried by the Rust structs but are ignored by the
  derived equality (`educe(PartialEq(ignore))`) and never influence any
  behaviour below, so they are omitted from the embedded records.

Definitions mirror `src/pool.rs`, `src/contracts.rs` and `src/main.rs`
and keep the source names.
-/

/-- Lookup in an association list, i.e. `HashMap::get` / first entry with
the given key. -/
def findAssoc (k : Nat) : List (Nat × α) → Option α
  | [] => none
  | (k1, v) :: rest => if k1 = k then some v else findAssoc k rest

/-- Remove the entry with the given key, i.e. `HashMap::remove` (the key
occurs at most once in a real `HashMap`; we drop the first occurrence). -/
def eraseAssoc (k : Nat) : List (Nat × α) → List (Nat × α)
  | [] => []
  | (k1, v) :: rest => if k1 = k then rest else (k1, v) :: eraseAssoc k rest

/-- Insert-or-overwrite, i.e. `HashMap::insert`: replace the value stored
under the key in place, or append a fresh entry. -/
def upsertAssoc (k : Nat) (x : α) : List (Nat × α) → List (Nat × α)
  | [] => [(k, x)]
  | (k1, v) :: rest =>
      if k1 = k then (k, x) :: rest else (k1, v) :: upsertAssoc k x rest

/-- Overwrite several keys in order with the same value, as the
`for input in inputs { self.by_input.insert(*input, item.clone()); }`
loop of `Pool::maybe_replace` does. -/
def upsertAll (x : α) (keys : List Nat) (l : List (Nat × α)) : List (Nat × α) :=
  keys.foldl (fun acc k => upsertAssoc k x acc) l

/-- Lookup of the bucket stored under a gas price in the sorted by-gas
index, i.e. `BTreeMap::get_mut` / `BTreeMap::entry` probing. -/
def gasFind (k : Nat) : List (Nat × List α) → Option (List α)
  | [] => none
  | (k1, b) :: rest => if k1 = k then some b else gasFind k rest

/-- The `self.by_gas.entry(*item.gas_price()).or_default().push(item)` call:
append to the bucket under the key, creating the entry at its sorted
position when absent. -/
def gasPush (k : Nat) (x : α) : List (Nat × List α) → List (Nat × List α)
  | [] => [(k, [x])]
  | (k1, b) :: rest =>
      if k = k1 then (k1, b ++ [x]) :: rest
      else if k < k1 then (k, [x]) :: (k1, b) :: rest
      else (k1, b) :: gasPush k x rest

/-- Replace the bucket stored under an existing key, leaving the entry in
place (used when the source mutates a bucket through `get_mut`). -/
def gasSetBucket (k : Nat) (b : List α) : List (Nat × List α) → List (Nat × List α)
  | [] => []
  | (k1, b1) :: rest =>
      if k1 = k then (k1, b) :: rest else (k1, b1) :: gasSetBucket k b rest

/-- Delete the whole entry stored under a key, i.e. `Entry::remove`. -/
def gasEraseEntry (k : Nat) : List (Nat × List α) → List (Nat × List α)
  | [] => []
  | (k1, b1) :: rest =>
      if k1 = k then rest else (k1, b1) :: gasEraseEntry k rest

/-- The `Transaction` trait of `src/pool.rs`: a gas price and a list of
observed inputs (the `Inputs` iterator is embedded as the list of the
identifiers it yields, in order). -/
class Transaction (α : Type) where
  gas_price : α → Nat
  inputs : α → List Nat

export Transaction (gas_price inputs)

/-- The transaction pool of `src/pool.rs`, with its two indexes and the
cached length counter. -/
structure Pool (α : Type) where
  max_len : Nat
  len : Nat
  by_gas : List (Nat × List α)
  by_input : List (Nat × α)
deriving DecidableEq

namespace Pool

/-- The `DEFAULT_MAX_LEN` constant. -/
def DEFAULT_MAX_LEN : Nat := 1024

/-- The `Pool::default()` state. -/
def defaultPool (α : Type) : Pool α :=
  { max_len := DEFAULT_MAX_LEN, len := 0, by_gas := [], by_input := [] }

variable {α : Type} [DecidableEq α] [Transaction α]

/-- `Pool::peek`: `self.by_gas.last_key_value().and_then(|(_, v)| v.first())`. -/
def peek (p : Pool α) : Option α :=
  p.by_gas.getLast?.bind fun kv => kv.2.head?

/-- `Pool::iter` materialised as a list: buckets in descending key order,
each bucket in insertion order. -/
def iterList (p : Pool α) : List α :=
  ((p.by_gas.map Prod.snd).reverse).flatten

/-- The `by_input` phase of `Pool::remove`: for each input of `item`,
remove the index entry, panicking (`none`) when it is absent
(`expect("item to remove not found by input")`) or when it does not hold
`item` (`assert!(removed.as_ref() == item)`). -/
def removeByInput (item : α) : List Nat → List (Nat × α) → Option (List (Nat × α))
  | [], bi => some bi
  | input :: rest, bi =>
      match findAssoc input bi with
      | none => none
      | some v =>
          if v = item then removeByInput item rest (eraseAssoc input bi)
          else none

/-- `Pool::remove`.  Panics (`none`) when `item` is not found by input,
when the by-input entry holds a different transaction, when the by-gas
bucket is vacant, or when the bucket does not contain exactly one copy of
`item`.  On success the bucket entry is dropped when it becomes empty. -/
def remove (p : Pool α) (item : α) : Option (Pool α) :=
  match removeByInput item (inputs item) p.by_input with
  | none => none
  | some bi =>
      match gasFind (gas_price item) p.by_gas with
      | none => none
      | some bucket =>
          let kept := bucket.filter (fun e => e ≠ item)
          if bucket.length = kept.length + 1 then
            if p.len = 0 then none
            else
              some { p with
                     by_input := bi
                     by_gas :=
                       if kept.isEmpty
                       then gasEraseEntry (gas_price item) p.by_gas
                       else gasSetBucket (gas_price item) kept p.by_gas
                     len := p.len - 1 }
          else none

/-- The conflict-scan loop at the top of `Pool::maybe_replace`: walk the
inputs in order collecting the conflicting incumbents; return `none` for
the early `return` taken when (not forcing) an incumbent has a gas price
at least `item`'s.  Note that one incumbent holding two of `item`'s
inputs is collected twice, exactly as in the source. -/
def conflictScan (bi : List (Nat × α)) (item : α) (force : Bool) :
    List Nat → List α → Option (List α)
  | [], acc => some acc
  | input :: rest, acc =>
      match findAssoc input bi with
      | none => conflictScan bi item force rest acc
      | some c =>
          if !force && gas_price item ≤ gas_price c then none
          else conflictScan bi item force rest (acc ++ [c])

/-- The `for replacee in replacees { self.remove(&replacee) }` loop. -/
def removeAll (p : Pool α) : List α → Option (Pool α)
  | [] => some p
  | r :: rest =>
      match p.remove r with
      | none => none
      | some p1 => removeAll p1 rest

/-- `Pool::maybe_replace`.  `none` models a panic in one of the `remove`
calls or in the overflow eviction (`first_key_value().unwrap().1[0]`). -/
def maybe_replace (p : Pool α) (item : α) (force : Bool) : Option (Pool α) :=
  match conflictScan p.by_input item force (inputs item) [] with
  | none => some p
  | some replacees =>
      match removeAll p replacees with
      | none => none
      | some p1 =>
          let p2 : Pool α :=
            { p1 with
              by_input := upsertAll item (inputs item) p1.by_input
              by_gas := gasPush (gas_price item) item p1.by_gas
              len := p1.len + 1 }
          if p2.len > p2.max_len then
            match p2.by_gas.head? with
            | none => none
            | some (_, b) =>
                match b.head? with
                | none => none
                | some v => p2.remove v
          else some p2

/-- `Pool::insert`. -/
def insert (p : Pool α) (item : α) : Option (Pool α) :=
  p.maybe_replace item false

/-- `Pool::replace`. -/
def replace (p : Pool α) (item : α) : Option (Pool α) :=
  p.maybe_replace item true

/-- `Pool::remove_conflicting_inputs`.  For each input: remove the
by-input entry if any; panic (`none`) when the holder's by-gas bucket is
missing, when the bucket does not lose exactly one element
(`assert_eq!(1, removed)`), or on `len` underflow.  Unlike `remove`, a
bucket emptied here is left in the map as an empty entry. -/
def remove_conflicting_inputs (p : Pool α) : List Nat → Option (Pool α)
  | [] => some p
  | input :: rest =>
      match findAssoc input p.by_input with
      | none => p.remove_conflicting_inputs rest
      | some old =>
          match gasFind (gas_price old) p.by_gas with
          | none => none
          | some bucket =>
              let kept := bucket.filter (fun e => e ≠ old)
              if bucket.length = kept.length + 1 then
                if p.len = 0 then none
                else
                  Pool.remove_conflicting_inputs
                    { p with
                      by_input := eraseAssoc input p.by_input
                      by_gas := gasSetBucket (gas_price old) kept p.by_gas
                      len := p.len - 1 } rest
              else none

/-- `Pool::remove_conflicting`, generic over the other transaction kind as
in the source. -/
def remove_conflicting {β : Type} [Transaction β] (p : Pool α) (other : β) :
    Option (Pool α) :=
  p.remove_conflicting_inputs (inputs other)

end Pool

/-- Exclusive upper bound of 256-bit unsigned values.  `U256` arithmetic in
the `uint` crate panics on overflow in every build profile, so each
potentially overflowing step below is guarded against this bound. -/
def U256_BOUND : Nat := 2 ^ 256

/-- `contracts::Transfer` (the signature field is ignored by the derived
equality and by every behaviour modelled here, so it is omitted). -/
structure Transfer where
  input0 : Nat
  input1 : Nat
  destination : Nat
  change : Nat
  amount : Nat
  gasprice : Nat
deriving DecidableEq

/-- `Transfer::inputs`: the match over `(input0.is_zero(), input1.is_zero())`. -/
def Transfer.inputsOf (t : Transfer) : List Nat :=
  match t.input0 == 0, t.input1 == 0 with
  | true, false => [t.input1]
  | false, true => [t.input0]
  | false, false => [t.input0, t.input1]
  | true, true => []

instance : Transaction Transfer where
  gas_price t := t.gasprice
  inputs := Transfer.inputsOf

/-- `contracts::Withdrawal` (signature omitted, as for `Transfer`). -/
structure Withdrawal where
  input : Nat
  gasprice : Nat
deriving DecidableEq

instance : Transaction Withdrawal where
  gas_price w := w.gasprice
  inputs w := [w.input]

/-- `contracts::Txn`, the tagged sum stored in the coordinator's pool. -/
inductive Txn where
  | transfer : Transfer → Txn
  | withdrawal : Withdrawal → Txn
deriving DecidableEq

instance : Transaction Txn where
  gas_price
    | .transfer t => t.gasprice
    | .withdrawal w => w.gasprice
  inputs
    | .transfer t => Transfer.inputsOf t
    | .withdrawal w => [w.input]

/-- `contracts::Deposit`. -/
structure Deposit where
  amount : Nat
  bounty : Nat
  owner : Nat
deriving DecidableEq

namespace Deposit

/-- `Deposit::GAS_CONSTANT` (currently zero). -/
def GAS_CONSTANT : Nat := 0

/-- `Deposit::GAS_VARIABLE` (currently zero). -/
def GAS_VARIABLE : Nat := 0

/-- `Deposit::fees`.  With both gas constants zero the arithmetic cannot
overflow, so no 256-bit guard is needed here. -/
def fees (count : Nat) (gasprice : Nat) : Nat :=
  (GAS_CONSTANT + GAS_VARIABLE * count) * gasprice

end Deposit

/-- `pool::Identified`: a deposit record together with its identifier. -/
structure Identified where
  deposit : Deposit
  id : Nat
deriving DecidableEq

/-- The derived lexicographic ordering key of `Identified`: the manual
`Ord` of `Deposit` compares `(bounty, amount, owner)`, and the derived
`Ord` of `Identified` compares the deposit first and then the id. -/
def Identified.key (d : Identified) : Nat × Nat × Nat × Nat :=
  (d.deposit.bounty, d.deposit.amount, d.deposit.owner, d.id)

/-- Strict lexicographic comparison of two `Identified.key` tuples,
matching the Rust derived `Ord`. -/
def keyLt (a b : Nat × Nat × Nat × Nat) : Bool :=
  a.1 < b.1
    || (a.1 = b.1 && (a.2.1 < b.2.1
    || (a.2.1 = b.2.1 && (a.2.2.1 < b.2.2.1
    || (a.2.2.1 = b.2.2.1 && a.2.2.2 < b.2.2.2)))))

/-- Insertion into the `by_bounty` `BTreeSet`, modelled as a sorted list
in strictly ascending `Identified.key` order with no duplicates. -/
def depSetInsert (x : Identified) : List Identified → List Identified
  | [] => [x]
  | y :: rest =>
      if Identified.key x = Identified.key y then y :: rest
      else if keyLt (Identified.key x) (Identified.key y) then x :: y :: rest
      else y :: depSetInsert x rest

/-- Removal from the `by_bounty` `BTreeSet`. -/
def depSetRemove (x : Identified) : List Identified → List Identified
  | [] => []
  | y :: rest => if y = x then rest else y :: depSetRemove x rest

/-- `pool::DepositPool`. -/
structure DepositPool where
  max_len : Nat
  by_id : List (Nat × Identified)
  by_bounty : List Identified
deriving DecidableEq

namespace DepositPool

/-- `DepositPool::default()`. -/
def defaultDP : DepositPool := { max_len := 1024, by_id := [], by_bounty := [] }

/-- `DepositPool::iter` materialised as a list: highest bounty first. -/
def iterList (dp : DepositPool) : List Identified :=
  dp.by_bounty.reverse

/-- `DepositPool::insert`.  Panics (`none`) when an entry with the same id
but a different record already exists (`assert!(old == arc)`). -/
def insert (dp : DepositPool) (item : Identified) : Option DepositPool :=
  match findAssoc item.id dp.by_id with
  | some old =>
      if old = item then
        some { dp with
               by_id := upsertAssoc item.id item dp.by_id
               by_bounty := depSetInsert item (depSetRemove old dp.by_bounty) }
      else none
  | none =>
      some { dp with
             by_id := upsertAssoc item.id item dp.by_id
             by_bounty := depSetInsert item dp.by_bounty }

end DepositPool

/-- `contracts::Claim` (signature omitted; it never takes part in any
comparison or branch modelled here). -/
structure Claim where
  input : Nat
  gasprice : Nat
  deposits : List Nat
deriving DecidableEq

/-- `contracts::Bundle`. -/
structure Bundle where
  claim : Claim
  transfers : List Transfer
  withdrawals : List Withdrawal
deriving DecidableEq

namespace Bundle

/-- `Bundle::MAX_SLOTS`. -/
def MAX_SLOTS : Nat := 10

/-- `Bundle::SLOTS_PER_CLAIM`. -/
def SLOTS_PER_CLAIM : Nat := 1

/-- `Bundle::SLOTS_PER_TRANSFER`. -/
def SLOTS_PER_TRANSFER : Nat := 1

/-- `Bundle::SLOTS_PER_WITHDRAWAL`. -/
def SLOTS_PER_WITHDRAWAL : Nat := 1

/-- `Bundle::new`. -/
def new : Bundle :=
  { claim := { input := 0, gasprice := 0, deposits := [] }
    transfers := []
    withdrawals := [] }

/-- `Bundle::full_slots`. -/
def full_slots (b : Bundle) : Nat :=
  b.claim.deposits.length * SLOTS_PER_CLAIM
    + b.transfers.length * SLOTS_PER_TRANSFER
    + b.withdrawals.length * SLOTS_PER_WITHDRAWAL

/-- `Bundle::free_slots` (`usize` subtraction; every bundle built through
the insert API keeps `full_slots` at most `MAX_SLOTS`, so truncated
subtraction is exact on all states exercised below). -/
def free_slots (b : Bundle) : Nat :=
  MAX_SLOTS - b.full_slots

/-- `Bundle::insert_deposit`: the first component is the rejected id
(`Some` on slot shortage), the second the updated bundle. -/
def insert_deposit (b : Bundle) (id : Nat) : Option Nat × Bundle :=
  if b.free_slots < SLOTS_PER_CLAIM then (some id, b)
  else (none, { b with claim := { b.claim with deposits := b.claim.deposits ++ [id] } })

/-- `Bundle::insert_withdrawal`. -/
def insert_withdrawal (b : Bundle) (w : Withdrawal) : Option Withdrawal × Bundle :=
  if b.free_slots < SLOTS_PER_WITHDRAWAL then (some w, b)
  else (none, { b with withdrawals := b.withdrawals ++ [w] })

/-- `Bundle::insert_transfer`. -/
def insert_transfer (b : Bundle) (t : Transfer) : Option Transfer × Bundle :=
  if b.free_slots < SLOTS_PER_TRANSFER then (some t, b)
  else (none, { b with transfers := b.transfers ++ [t] })

/-- `Bundle::insert`, dispatching on the transaction kind. -/
def insert (b : Bundle) (txn : Txn) : Option Txn × Bundle :=
  match txn with
  | .withdrawal w =>
      let r := b.insert_withdrawal w
      (r.1.map Txn.withdrawal, r.2)
  | .transfer t =>
      let r := b.insert_transfer t
      (r.1.map Txn.transfer, r.2)

/-- `Bundle::minimum_gas_price`: minimum of the claim's gas price (only
when it has deposits), the transfers' and the withdrawals' gas prices. -/
def minimum_gas_price (b : Bundle) : Option Nat :=
  ((if b.claim.deposits.isEmpty then [] else [b.claim.gasprice])
    ++ b.transfers.map Transfer.gasprice
    ++ b.withdrawals.map Withdrawal.gasprice).min?

/-- `Bundle::estimate_price`.  `none` models the `U256` overflow panic in
`(min_gp - base) * full_slots` or in `base + bribe`. -/
def estimate_price (b : Bundle) (base : Nat) : Option Nat :=
  match b.minimum_gas_price with
  | none => some 0
  | some m =>
      if m > base then
        let prod := (m - base) * b.full_slots
        if prod < U256_BOUND then
          let bribe := prod / MAX_SLOTS
          if base + bribe < U256_BOUND then some (base + bribe) else none
        else none
      else some m

end Bundle

/-- The coordinator's protected state `main::Pending`. -/
structure Pending where
  deposits : DepositPool
  transactions : Pool Txn
  best_bundle : Option Bundle
deriving DecidableEq

namespace Pending

/-- The inner deposit-selection loop of `Pending::regenerate`.  `gp` is
the candidate operation's gas price, `ndLen` the (constant) length of
`new_bundle.claim.deposits` read through the `deposits` borrow, and
`bundle` the incumbent bundle, which the source mutates through
`bundle.insert_deposit` (not `new_bundle`). -/
def depositLoop (gp : Nat) (ndLen : Nat) (bundle : Bundle) :
    List Identified → Bundle
  | [] => bundle
  | candidate :: rest =>
      let previous_fees := Deposit.fees ndLen gp
      let fees := Deposit.fees (ndLen + 1) gp
      let my_fees := fees - previous_fees
      if candidate.deposit.bounty < my_fees then bundle
      else
        match bundle.insert_deposit candidate.id with
        | (some _, b) => b
        | (none, b) => depositLoop gp ndLen b rest

/-- The greedy outer loop of `Pending::regenerate` over the pool's
transactions in descending gas-price order.  `none` models a `U256`
overflow panic inside `estimate_price`. -/
def greedyLoop (deps : List Identified) (base : Nat) :
    List Txn → Bundle → Option Bundle
  | [], bundle => some bundle
  | txn :: rest, bundle =>
      let gp := gas_price txn
      let nb0 : Bundle :=
        { Bundle.new with transfers := bundle.transfers, withdrawals := bundle.withdrawals }
      let nb1 := (nb0.insert txn).2
      let new_bundle := { nb1 with claim := { nb1.claim with gasprice := gp } }
      let bundle1 := depositLoop gp new_bundle.claim.deposits.length bundle deps
      match bundle1.estimate_price base, new_bundle.estimate_price base with
      | some pb, some pn =>
          if pb ≥ pn then some bundle1
          else greedyLoop deps base rest new_bundle
      | _, _ => none

/-- `Pending::regenerate`.  Returns the emitted bundle (as the source's
`Option<&Bundle>`) together with the updated state; the outer `none`
models a panic. -/
def regenerate (p : Pending) (base : Nat) : Option (Option Bundle × Pending) :=
  match greedyLoop p.deposits.iterList base p.transactions.iterList Bundle.new with
  | none => none
  | some bundle =>
      match p.best_bundle with
      | none => some (some bundle, { p with best_bundle := some bundle })
      | some best =>
          match best.estimate_price base, bundle.estimate_price base with
          | some pbest, some pb =>
              if pbest ≥ pb then some (none, p)
              else some (some bundle, { p with best_bundle := some bundle })
          | _, _ => none

/-- `Pending::generate`: clear the cache, then regenerate. -/
def generate (p : Pending) (base : Nat) : Option (Option Bundle × Pending) :=
  Pending.regenerate { p with best_bundle := none } base

end Pending

/-- Sequential insertion of a list of operations, short-circuiting on a
panic, as a driver for multi-insert scenarios. -/
def Pool.foldInsert {α : Type} [DecidableEq α] [Transaction α] (p : Pool α) :
    List α → Option (Pool α)
  | [] => some p
  | op :: rest =>
      match p.insert op with
      | none => none
      | some q => Pool.foldInsert q rest

/-- The pool state reached by inserting operations with pairwise fresh
inputs and strictly ascending gas prices, in order: one singleton bucket
per operation, by-input entries in insertion order. -/
def canonicalPool {α : Type} [Transaction α] (m : Nat) (l : List α) : Pool α :=
  { max_len := m
    len := l.length
    by_gas := l.map (fun o => (gas_price o, [o]))
    by_input := l.flatMap (fun o => (inputs o).map (fun i => (i, o))) }

/-- Pool states reachable from `Pool::default()` by successful public
operations (`insert`, `replace`, `remove`, `remove_conflicting`). -/
inductive Reach {α : Type} [DecidableEq α] [Transaction α] : Pool α → Prop where
  | init : Reach (Pool.defaultPool α)
  | insert (p q : Pool α) (op : α) :
      Reach p → p.insert op = some q → Reach q
  | replace (p q : Pool α) (op : α) :
      Reach p → p.replace op = some q → Reach q
  | remove (p q : Pool α) (op : α) :
      Reach p → p.remove op = some q → Reach q
  | remove_conflicting (p q : Pool α) (ins : List Nat) :
      Reach p → p.remove_conflicting_inputs ins = some q → Reach q

/-- Helper constructor for concrete transfers (destination, change and
amount zero; they never influence pool or selector behaviour). -/
def mkTransfer (gp i0 i1 : Nat) : Transfer :=
  { input0 := i0, input1 := i1, destination := 0, change := 0, amount := 0, gasprice := gp }

/-- Helper constructor for concrete withdrawals. -/
def mkWithdrawal (gp i : Nat) : Withdrawal :=
  { input := i, gasprice := gp }

/-- Concrete bundle for claim C1: two transfers whose shared gas price
makes the price-estimation product overflow 256 bits. -/
def c1bundle : Bundle :=
  { claim := { input := 0, gasprice := 0, deposits := [] }
    transfers := [mkTransfer (2 ^ 255) 1 2, mkTransfer (2 ^ 255) 3 4]
    withdrawals := [] }

/-- Concrete bundle for the C1 witness: one transfer above base. -/
def c1wbundle : Bundle :=
  { claim := { input := 0, gasprice := 0, deposits := [] }
    transfers := [mkTransfer 100 1 2]
    withdrawals := [] }

/-- Concrete transfer for claim C2. -/
def c2xfr : Transfer := mkTransfer 100 1 2

/-- Concrete break-even deposit for claim C2. -/
def c2dep : Identified :=
  { deposit := { amount := 0, bounty := 1, owner := 0 }, id := 7 }

/-- Pool holding only `c2xfr`. -/
def c2pool : Pool Txn :=
  ((Pool.defaultPool Txn).insert (Txn.transfer c2xfr)).getD (Pool.defaultPool Txn)

/-- Deposit pool holding only `c2dep`. -/
def c2dp : DepositPool :=
  (DepositPool.defaultDP.insert c2dep).getD DepositPool.defaultDP

/-- The C2 selector state: one pooled transfer, one claimable deposit, no
cached bundle. -/
def c2pending : Pending :=
  { deposits := c2dp, transactions := c2pool, best_bundle := none }

/-- The bundle `regenerate` actually produces on `c2pending`: the deposit
id is missing from the claim. -/
def c2result : Bundle :=
  { claim := { input := 0, gasprice := 100, deposits := [] }
    transfers := [c2xfr]
    withdrawals := [] }

/-- Concrete incumbent for claim C3's witness. -/
def c3incumbent : Transfer := mkTransfer 27 97 103

/-- Pool holding only `c3incumbent`. -/
def c3pool : Pool Txn :=
  ((Pool.defaultPool Txn).insert (Txn.transfer c3incumbent)).getD (Pool.defaultPool Txn)

/-- Concrete incumbent for claim C4. -/
def c4incumbent : Transfer := mkTransfer 27 97 103

/-- Higher-priced operation sharing both inputs with `c4incumbent`. -/
def c4op : Transfer := mkTransfer 29 97 103

/-- Pool holding only `c4incumbent`. -/
def c4pool : Pool Txn :=
  ((Pool.defaultPool Txn).insert (Txn.transfer c4incumbent)).getD (Pool.defaultPool Txn)

/-- Concrete resident for claim C5, holding two inputs. -/
def c5resident : Transfer := mkTransfer 27 97 103

/-- Pool holding only `c5resident`. -/
def c5pool : Pool Txn :=
  ((Pool.defaultPool Txn).insert (Txn.transfer c5resident)).getD (Pool.defaultPool Txn)

/-- Zero-input transfer for claim C8: it contributes no by-input entries. -/
def c8zero : Txn := Txn.transfer (mkTransfer 5 0 0)

/-- Pool after inserting `c8zero` once. -/
def c8p1 : Pool Txn :=
  ((Pool.defaultPool Txn).insert c8zero).getD (Pool.defaultPool Txn)

/-- Pool after inserting `c8zero` twice. -/
def c8p2 : Pool Txn :=
  (c8p1.insert c8zero).getD (Pool.defaultPool Txn)

/-- One-input operation for the C8 witness. -/
def c8wop : Txn := Txn.withdrawal (mkWithdrawal 29 98)

/-- Pool after inserting `c8wop` once. -/
def c8wpool : Pool Txn :=
  ((Pool.defaultPool Txn).insert c8wop).getD (Pool.defaultPool Txn)

/-- First withdrawal for claim C9 (gas price 10, input 1). -/
def c9w1 : Withdrawal := mkWithdrawal 10 1

/-- Second withdrawal for claim C9 (gas price 5, input 2). -/
def c9w2 : Withdrawal := mkWithdrawal 5 2

/-- Pool holding `c9w1`. -/
def c9pA : Pool Txn :=
  ((Pool.defaultPool Txn).insert (Txn.withdrawal c9w1)).getD (Pool.defaultPool Txn)

/-- Pool holding `c9w1` and `c9w2`. -/
def c9pAB : Pool Txn :=
  (c9pA.insert (Txn.withdrawal c9w2)).getD (Pool.defaultPool Txn)

/-- Pool after `remove_conflicting` consumed input 1: `c9w2` is still
resident but the highest-gas bucket is an empty leftover. -/
def c9pool : Pool Txn :=
  (c9pAB.remove_conflicting (Txn.withdrawal c9w1)).getD (Pool.defaultPool Txn)

/-- First huge-priced transfer for claim C10. -/
def c10xfr1 : Transfer := mkTransfer (2 ^ 255) 1 2

/-- Second huge-priced transfer for claim C10. -/
def c10xfr2 : Transfer := mkTransfer (2 ^ 255) 3 4

/-- Pool holding `c10xfr1`. -/
def c10poolA : Pool Txn :=
  ((Pool.defaultPool Txn).insert (Txn.transfer c10xfr1)).getD (Pool.defaultPool Txn)

/-- Pool holding both huge-priced transfers. -/
def c10pool : Pool Txn :=
  (c10poolA.insert (Txn.transfer c10xfr2)).getD (Pool.defaultPool Txn)

/-- The C10 selector state: empty cache, two huge-priced transfers. -/
def c10pending : Pending :=
  { deposits := DepositPool.defaultDP, transactions := c10pool, best_bundle := none }

/-- Cached bundle for the C7 witness: a single withdrawal at gas price 10. -/
def c7wbest : Bundle :=
  { claim := { input := 0, gasprice := 0, deposits := [] }
    transfers := []
    withdrawals := [mkWithdrawal 10 11] }

/-- The C7 witness state: empty pool, cached `c7wbest`. -/
def c7wpending : Pending :=
  { deposits := DepositPool.defaultDP
    transactions := Pool.defaultPool Txn
    best_bundle := some c7wbest }

/-- The C10 witness state: empty pool and empty cache. -/
def c10wpending : Pending :=
  { deposits := DepositPool.defaultDP
    transactions := Pool.defaultPool Txn
    best_bundle := none }

/-- Representation invariants every value of the Rust `Pool` type
satisfies: the `BTreeMap` keys are strictly sorted, every bucket member
is stored under its own gas price (buckets are only ever pushed to under
`*item.gas_price()`), and the `HashMap` keys are unique. -/
def PoolWF {α : Type} [Transaction α] (p : Pool α) : Prop :=
  (p.by_gas.map Prod.fst).Pairwise (fun a b => a < b) ∧
  (∀ e ∈ p.by_gas, ∀ x ∈ e.2, gas_price x = e.1) ∧
  (p.by_input.map Prod.fst).Nodup

/-- Claim C2 (code bug).  On a state with one pooled transfer (gas 100,
free slots remaining) and one break-even deposit, the deposit-selection
loop writes into the incumbent `bundle` instead of `new_bundle`, so the
bundle actually installed and returned by `regenerate(50)` carries no
deposit ids at all, although a slot was free and the bounty cleared the
marginal fee. -/
theorem c2_deposit_written_to_incumbent :
    (Pool.defaultPool Txn).insert (Txn.transfer c2xfr) = some c2pool ∧
    DepositPool.defaultDP.insert c2dep = some c2dp ∧
    c2pending.regenerate 50
      = some (some c2result, { c2pending with best_bundle := some c2result }) ∧
    c2result.claim.deposits = [] ∧
    c2result.full_slots = 1 ∧
    Deposit.fees 1 100 - Deposit.fees 0 100 ≤ c2dep.deposit.bounty := by
  decide

/-- Claim C4 (code bug).  When a single incumbent (gas 27) holds both
inputs of the higher-priced new operation (gas 29), the incumbent is
collected as a replacee twice and the second `Pool::remove` panics, so
`insert` aborts instead of replacing. -/
theorem c4_insert_double_conflict_panics :
    (Pool.defaultPool Txn).insert (Txn.transfer c4incumbent) = some c4pool ∧
    gas_price (Txn.transfer c4incumbent) < gas_price (Txn.transfer c4op) ∧
    findAssoc 97 c4pool.by_input = some (Txn.transfer c4incumbent) ∧
    findAssoc 103 c4pool.by_input = some (Txn.transfer c4incumbent) ∧
    c4pool.insert (Txn.transfer c4op) = none := by
  decide

/-- Claim C5 (code bug).  `remove_conflicting` on an operation sharing
both inputs with one resident panics: after the first input is processed
the second lookup still finds the resident, but its by-gas bucket has
already been emptied, so `assert_eq!(1, removed)` fails. -/
theorem c5_remove_conflicting_two_inputs_panics :
    (Pool.defaultPool Txn).insert (Txn.transfer c5resident) = some c5pool ∧
    c5pool.remove_conflicting (Txn.transfer c5resident) = none := by
  decide

/-- Claim C8, counterexample.  A transfer with both inputs zero has an
empty conflict set, so a second insert of the very same operation is not
a no-op: the pool grows from one to two residents. -/
theorem c8_counterexample :
    (Pool.defaultPool Txn).insert c8zero = some c8p1 ∧
    c8p1.insert c8zero = some c8p2 ∧
    c8p2 ≠ c8p1 ∧ c8p2.len = 2 ∧ c8p1.len = 1 := by
  decide

/-- Claim C9 (code bug).  After `remove_conflicting` drains the
highest-gas bucket, the empty bucket is left behind as the last by-gas
entry, so `peek()` returns `None` although one operation (gas 5) is still
resident and `len() = 1`. -/
theorem c9_peek_none_after_remove_conflicting :
    (Pool.defaultPool Txn).insert (Txn.withdrawal c9w1) = some c9pA ∧
    c9pA.insert (Txn.withdrawal c9w2) = some c9pAB ∧
    c9pAB.remove_conflicting (Txn.withdrawal c9w1) = some c9pool ∧
    c9pool.peek = none ∧
    c9pool.len = 1 ∧
    c9pool.iterList = [Txn.withdrawal c9w2] := by
  decide

/-- Claim C10, counterexample.  With an empty cache but two pooled
transfers of gas price 2 to the 255, the greedy loop's second price
estimate multiplies a 256-bit delta by two occupied slots, overflows, and
panics, so `regenerate` returns nothing at all instead of installing a
bundle. -/
theorem c10_counterexample :
    c10pending.best_bundle = none ∧
    (Pool.defaultPool Txn).insert (Txn.transfer c10xfr1) = some c10poolA ∧
    c10poolA.insert (Txn.transfer c10xfr2) = some c10pool ∧
    c10pending.regenerate 0 = none := by
  decide

/-- Claim C1, counterexample.  On a bundle with two transfers at gas
price 2 to the 255 and base 0, the source computes
`(m - base) * full_slots()` in 256-bit arithmetic, which overflows and
panics, so `estimate_price` does not return the claimed quotient value
(the model returns `none`). -/
theorem c1_counterexample :
    c1bundle.minimum_gas_price = some (2 ^ 255) ∧
    0 < 2 ^ 255 ∧
    c1bundle.estimate_price 0 = none ∧
    c1bundle.estimate_price 0
      ≠ some (0 + ((2 ^ 255 - 0) * c1bundle.full_slots) / Bundle.MAX_SLOTS) := by
  refine ⟨by decide, by decide, by decide, ?_⟩
  intro h
  simp [show c1bundle.estimate_price 0 = none from by decide] at h

/-- Claim C1, amended.  For every bundle and base price: an empty bundle
(absent minimum gas price) estimates 0; when the minimum gas price m is
at most base the estimate is m; and otherwise, provided the 256-bit
product (m - base) * full_slots() and the final sum do not overflow, the
estimate is base + ((m - base) * full_slots()) / MAX_SLOTS with integer
division. -/
theorem c1_estimate_price_amended :
    (∀ (b : Bundle) (base : Nat),
       b.minimum_gas_price = none → b.estimate_price base = some 0) ∧
    (∀ (b : Bundle) (base m : Nat),
       b.minimum_gas_price = some m → m ≤ base →
       b.estimate_price base = some m) ∧
    (∀ (b : Bundle) (base m : Nat),
       b.minimum_gas_price = some m → base < m →
       (m - base) * b.full_slots < U256_BOUND →
       base + ((m - base) * b.full_slots) / Bundle.MAX_SLOTS < U256_BOUND →
       b.estimate_price base
         = some (base + ((m - base) * b.full_slots) / Bundle.MAX_SLOTS)) := by
  refine ⟨?_, ?_, ?_⟩
  · intro b base h
    simp [Bundle.estimate_price, h]
  · intro b base m h hle
    simp [Bundle.estimate_price, h, Nat.not_lt.mpr hle]
  · intro b base m h hlt hprod hsum
    simp [Bundle.estimate_price, h, hlt, hprod, hsum]

/-- Witness for the C1 theorem: all three branches evaluated at concrete
bundles (the third on a one-transfer bundle with gas 100 over base 5). -/
theorem c1_witness :
    (Bundle.new.minimum_gas_price = none ∧ Bundle.new.estimate_price 3 = some 0) ∧
    (c1wbundle.minimum_gas_price = some 100 ∧ 100 ≤ 200 ∧
       c1wbundle.estimate_price 200 = some 100) ∧
    (c1wbundle.minimum_gas_price = some 100 ∧ 5 < 100 ∧
       (100 - 5) * c1wbundle.full_slots < U256_BOUND ∧
       5 + ((100 - 5) * c1wbundle.full_slots) / Bundle.MAX_SLOTS < U256_BOUND ∧
       c1wbundle.estimate_price 5
         = some (5 + ((100 - 5) * c1wbundle.full_slots) / Bundle.MAX_SLOTS)) := by
  refine ⟨⟨by decide, ?_⟩, ⟨by decide, by decide, ?_⟩, ⟨by decide, by decide, by decide, by decide, ?_⟩⟩
  · exact c1_estimate_price_amended.1 Bundle.new 3 (by decide)
  · exact c1_estimate_price_amended.2.1 c1wbundle 200 100 (by decide) (by decide)
  · exact c1_estimate_price_amended.2.2 c1wbundle 5 100 (by decide) (by decide) (by decide) (by decide)

/-- The conflict scan returns the early no-op `return` as soon as some
scanned input is indexed to an incumbent whose gas price is at least the
new item's. -/
theorem conflictScan_reject {α : Type} [DecidableEq α] [Transaction α]
    (bi : List (Nat × α)) (item c : α) (i : Nat) :
    ∀ (ins : List Nat) (acc : List α), i ∈ ins →
    findAssoc i bi = some c → gas_price item ≤ gas_price c →
    Pool.conflictScan bi item false ins acc = none := by
  intro ins
  induction ins with
  | nil => intro acc hmem _ _; cases hmem
  | cons j rest ih =>
      intro acc hmem hfound hgp
      rcases List.mem_cons.mp hmem with hj | hrest
      · subst hj
        simp only [Pool.conflictScan, hfound]
        simp [hgp]
      · simp only [Pool.conflictScan]
        cases hj : findAssoc j bi with
        | none => exact ih acc hrest hfound hgp
        | some cj =>
            by_cases hcj : gas_price item ≤ gas_price cj
            · simp [hcj]
            · simp only [Bool.not_false, Bool.true_and, decide_eq_true_eq]
              rw [if_neg hcj]
              exact ih (acc ++ [cj]) hrest hfound hgp

/-- Claim C3 (confirmed).  If some input of the new operation is indexed
to an incumbent whose gas price is greater than or equal to the new
operation's (ties favouring the incumbent), then `insert` is a no-op:
the returned pool is exactly the previous state, with both indexes, the
length and the iteration order untouched. -/
theorem c3_insert_noop {α : Type} [DecidableEq α] [Transaction α]
    (p : Pool α) (op c : α) (i : Nat)
    (hi : i ∈ inputs op)
    (hfound : findAssoc i p.by_input = some c)
    (hgp : gas_price op ≤ gas_price c) :
    p.insert op = some p := by
  unfold Pool.insert Pool.maybe_replace
  rw [conflictScan_reject p.by_input op c i (inputs op) [] hi hfound hgp]

/-- Witness for C3: a transfer tying the incumbent's gas price 27 on the
shared input 103 is rejected and the pool is returned unchanged. -/
theorem c3_witness :
    (Pool.defaultPool Txn).insert (Txn.transfer c3incumbent) = some c3pool ∧
    (103 ∈ inputs (Txn.transfer (mkTransfer 27 98 103)) ∧
     findAssoc 103 c3pool.by_input = some (Txn.transfer c3incumbent) ∧
     gas_price (Txn.transfer (mkTransfer 27 98 103)) ≤ gas_price (Txn.transfer c3incumbent)) ∧
    c3pool.insert (Txn.transfer (mkTransfer 27 98 103)) = some c3pool := by
  refine ⟨by decide, ⟨by decide, by decide, by decide⟩, ?_⟩
  exact c3_insert_noop c3pool (Txn.transfer (mkTransfer 27 98 103))
    (Txn.transfer c3incumbent) 103 (by decide) (by decide) (by decide)

/-- Claim C7 (confirmed).  With a cached bundle present and both prices
defined, `regenerate` returns nothing and leaves the whole state
unchanged when the cached estimate is at least the candidate's, and it
installs and returns the candidate exactly when the candidate's estimate
is strictly greater. -/
theorem c7_regenerate_cache_compare (p : Pending) (base : Nat)
    (cand best : Bundle) (pbest pc : Nat)
    (hbest : p.best_bundle = some best)
    (hloop : Pending.greedyLoop p.deposits.iterList base p.transactions.iterList
               Bundle.new = some cand)
    (hbe : best.estimate_price base = some pbest)
    (hce : cand.estimate_price base = some pc) :
    (pc ≤ pbest → p.regenerate base = some (none, p)) ∧
    (pbest < pc →
       p.regenerate base = some (some cand, { p with best_bundle := some cand })) := by
  constructor
  · intro h
    simp [Pending.regenerate, hloop, hbest, hbe, hce, h]
  · intro h
    simp [Pending.regenerate, hloop, hbest, hbe, hce, Nat.not_le.mpr h]

/-- Witness for C7: with an empty pool the candidate is the empty bundle
(estimate 0), the cached single-withdrawal bundle estimates 5 at base 5,
so `regenerate 5` returns nothing and the state is untouched. -/
theorem c7_witness :
    c7wpending.best_bundle = some c7wbest ∧
    Pending.greedyLoop c7wpending.deposits.iterList 5
      c7wpending.transactions.iterList Bundle.new = some Bundle.new ∧
    c7wbest.estimate_price 5 = some 5 ∧
    Bundle.new.estimate_price 5 = some 0 ∧
    c7wpending.regenerate 5 = some (none, c7wpending) := by
  refine ⟨by decide, by decide, by decide, by decide, ?_⟩
  exact (c7_regenerate_cache_compare c7wpending 5 Bundle.new c7wbest 5 0
    (by decide) (by decide) (by decide) (by decide)).1 (by decide)

/-- Claim C10, amended.  When the cached bundle is absent, `regenerate`
installs and returns the greedy-loop bundle whenever the loop completes
without a 256-bit overflow panic; with an empty transaction pool the
loop always completes, and the installed bundle is the completely empty
bundle whose estimated price is 0. -/
theorem c10_regenerate_amended :
    (∀ (p : Pending) (base : Nat) (cand : Bundle),
       p.best_bundle = none →
       Pending.greedyLoop p.deposits.iterList base p.transactions.iterList
         Bundle.new = some cand →
       p.regenerate base = some (some cand, { p with best_bundle := some cand })) ∧
    (∀ (p : Pending) (base : Nat),
       p.transactions.by_gas = [] → p.best_bundle = none →
       p.regenerate base
           = some (some Bundle.new, { p with best_bundle := some Bundle.new }) ∧
         Bundle.new.estimate_price base = some 0) := by
  constructor
  · intro p base cand hnone hloop
    unfold Pending.regenerate
    rw [hloop, hnone]
  · intro p base hempty hnone
    constructor
    · unfold Pending.regenerate
      have hiter : p.transactions.iterList = [] := by
        unfold Pool.iterList
        rw [hempty]
        rfl
      rw [hiter]
      simp only [Pending.greedyLoop]
      rw [hnone]
    · rfl

/-- Witness for C10: on the empty state, `regenerate 7` installs and
returns the empty bundle, whose estimate is 0. -/
theorem c10_witness :
    c10wpending.transactions.by_gas = [] ∧
    c10wpending.best_bundle = none ∧
    c10wpending.regenerate 7
        = some (some Bundle.new, { c10wpending with best_bundle := some Bundle.new }) ∧
    Bundle.new.estimate_price 7 = some 0 := by
  refine ⟨by decide, by decide, ?_⟩
  exact c10_regenerate_amended.2 c10wpending 7 (by decide) (by decide)

theorem remove_spec {α : Type} [DecidableEq α] [Transaction α] {p q : Pool α} {x : α}
    (h : p.remove x = some q) :
    q.max_len = p.max_len ∧ q.len + 1 = p.len := by
  unfold Pool.remove at h
  cases hbi : Pool.removeByInput x (inputs x) p.by_input with
  | none => rw [hbi] at h; cases h
  | some bi =>
      rw [hbi] at h
      cases hb : gasFind (gas_price x) p.by_gas with
      | none => rw [hb] at h; cases h
      | some bucket =>
          rw [hb] at h
          simp only at h
          split at h
      
          · split at h
            · cases h
            · rename_i hlen0
              rw [Option.some.injEq] at h
              subst h
              refine ⟨rfl, ?_⟩
              exact Nat.succ_pred_eq_of_pos (Nat.pos_of_ne_zero hlen0)
          · cases h

theorem removeAll_spec {α : Type} [DecidableEq α] [Transaction α] :
    ∀ {l : List α} {p q : Pool α}, Pool.removeAll p l = some q →
    q.max_len = p.max_len ∧ q.len ≤ p.len := by
  intro l
  induction l with
  | nil =>
      intro p q h
      rw [Pool.removeAll, Option.some.injEq] at h
      subst h
      exact ⟨rfl, Nat.le_refl _⟩
  | cons r rest ih =>
      intro p q h
      rw [Pool.removeAll] at h
      cases hr : p.remove r with
      | none => rw [hr] at h; cases h
      | some p1 =>
          rw [hr] at h
          obtain ⟨hm, hl⟩ := remove_spec hr
          obtain ⟨hm2, hl2⟩ := ih h
          refine ⟨hm2.trans hm, ?_⟩
          omega

theorem remove_conflicting_spec {α : Type} [DecidableEq α] [Transaction α] :
    ∀ {l : List Nat} {p q : Pool α}, Pool.remove_conflicting_inputs p l = some q →
    q.max_len = p.max_len ∧ q.len ≤ p.len := by
  intro l
  induction l with
  | nil =>
      intro p q h
      rw [Pool.remove_conflicting_inputs, Option.some.injEq] at h
      subst h
      exact ⟨rfl, Nat.le_refl _⟩
  | cons i rest ih =>
      intro p q h
      rw [Pool.remove_conflicting_inputs] at h
      cases hf : findAssoc i p.by_input with
      | none =>
          rw [hf] at h
          exact ih h
      | some old =>
          rw [hf] at h
          simp only at h
          cases hb : gasFind (gas_price old) p.by_gas with
          | none => rw [hb] at h; cases h
          | some bucket =>
              rw [hb] at h
              simp only at h
              split at h
              · split at h
                · cases h
                · obtain ⟨hm, hl⟩ := ih h
                  refine ⟨hm, ?_⟩
                  simp only at hl
                  omega
              · cases h

theorem maybe_replace_spec {α : Type} [DecidableEq α] [Transaction α]
    {p q : Pool α} {x : α} {force : Bool}
    (h : p.maybe_replace x force = some q) :
    q.max_len = p.max_len ∧ (p.len ≤ p.max_len → q.len ≤ q.max_len) := by
  unfold Pool.maybe_replace at h
  cases hs : Pool.conflictScan p.by_input x force (inputs x) [] with
  | none =>
      rw [hs, Option.some.injEq] at h
      subst h
      exact ⟨rfl, fun hb => hb⟩
  | some reps =>
      rw [hs] at h
      simp only at h
      cases hra : Pool.removeAll p reps with
      | none => rw [hra] at h; cases h
      | some p1 =>
          rw [hra] at h
          obtain ⟨hm1, hl1⟩ := removeAll_spec hra
          simp only at h
          split at h
          · rename_i hover
            cases hh : (gasPush (gas_price x) x p1.by_gas).head? with
            | none => rw [hh] at h; cases h
            | some kv =>
                rw [hh] at h
                obtain ⟨k0, b0⟩ := kv
                simp only at h
                cases hv : b0.head? with
                | none =>
                    rw [hv] at h
                    cases h
                | some v =>
                    rw [hv] at h
                    obtain ⟨hm2, hl2⟩ := remove_spec h
                    refine ⟨hm2.trans hm1, fun hb => ?_⟩
                    simp only at hm2 hl2
                    omega
          · rename_i hover
            rw [Option.some.injEq] at h
            subst h
            simp only
            refine ⟨hm1, fun hb => ?_⟩
            omega

theorem c6_part1 {α : Type} [DecidableEq α] [Transaction α]
    {p : Pool α} (h : Reach p) :
    p.len ≤ p.max_len ∧ p.max_len = Pool.DEFAULT_MAX_LEN := by
  induction h with
  | init => exact ⟨Nat.zero_le _, rfl⟩
  | insert p q op hr hs ih =>
      obtain ⟨hm, hl⟩ := maybe_replace_spec hs
      exact ⟨hl ih.1, hm.trans ih.2⟩
  | replace p q op hr hs ih =>
      obtain ⟨hm, hl⟩ := maybe_replace_spec hs
      exact ⟨hl ih.1, hm.trans ih.2⟩
  | remove p q op hr hs ih =>
      obtain ⟨hm, hl⟩ := remove_spec hs
      exact ⟨by omega, hm.trans ih.2⟩
  | remove_conflicting p q ins hr hs ih =>
      obtain ⟨hm, hl⟩ := remove_conflicting_spec hs
      exact ⟨by omega, hm.trans ih.2⟩

theorem findAssoc_eq_none {α : Type} {k : Nat} :
    ∀ {l : List (Nat × α)}, k ∉ l.map Prod.fst → findAssoc k l = none := by
  intro l
  induction l with
  | nil => intro _; rfl
  | cons e rest ih =>
      intro h
      obtain ⟨k1, v⟩ := e
      simp only [List.map_cons, List.mem_cons] at h
      push_neg at h
      rw [findAssoc, if_neg (fun he => h.1 he.symm)]
      exact ih h.2

theorem flatEntries_keys {α : Type} [Transaction α] :
    ∀ (l : List α),
    ((l.flatMap fun o => (inputs o).map fun i => (i, o)).map Prod.fst)
      = l.flatMap inputs := by
  intro l
  induction l with
  | nil => rfl
  | cons o rest ih =>
      simp only [List.flatMap_cons, List.map_append, List.map_map, ih]
      rw [show (Prod.fst ∘ fun i => (i, o)) = id from rfl, List.map_id]

theorem conflictScan_all_none {α : Type} [DecidableEq α] [Transaction α]
    (bi : List (Nat × α)) (item : α) (force : Bool) :
    ∀ (ins : List Nat) (acc : List α),
    (∀ i ∈ ins, findAssoc i bi = none) →
    Pool.conflictScan bi item force ins acc = some acc := by
  intro ins
  induction ins with
  | nil => intro acc _; rfl
  | cons j rest ih =>
      intro acc h
      rw [Pool.conflictScan, h j (List.mem_cons_self j rest)]
      exact ih acc (fun i hi => h i (List.mem_cons_of_mem j hi))

theorem upsertAssoc_fresh {α : Type} {k : Nat} {x : α} :
    ∀ {l : List (Nat × α)}, k ∉ l.map Prod.fst →
    upsertAssoc k x l = l ++ [(k, x)] := by
  intro l
  induction l with
  | nil => intro _; rfl
  | cons e rest ih =>
      intro h
      obtain ⟨k1, v⟩ := e
      simp only [List.map_cons, List.mem_cons] at h
      push_neg at h
      rw [upsertAssoc, if_neg (fun he => h.1 he.symm)]
      rw [List.cons_append, ih h.2]

theorem upsertAll_fresh {α : Type} {x : α} :
    ∀ {ins : List Nat} {l : List (Nat × α)}, ins.Nodup →
    (∀ i ∈ ins, i ∉ l.map Prod.fst) →
    upsertAll x ins l = l ++ ins.map (fun i => (i, x)) := by
  intro ins
  induction ins with
  | nil => intro l _ _; simp [upsertAll]
  | cons j rest ih =>
      intro l hnd hfresh
      rw [upsertAll, List.foldl_cons]
      have h1 : upsertAssoc j x l = l ++ [(j, x)] :=
        upsertAssoc_fresh (hfresh j (List.mem_cons_self j rest))
      rw [h1]
      have h2 : upsertAll x rest (l ++ [(j, x)]) = (l ++ [(j, x)]) ++ rest.map (fun i => (i, x)) := by
        apply ih (List.Nodup.of_cons hnd)
        intro i hi
        simp only [List.map_append, List.map_cons, List.map_nil, List.mem_append, List.mem_singleton]
        rintro (hil | hij)
        · exact hfresh i (List.mem_cons_of_mem j hi) hil
        · exact (List.nodup_cons.mp hnd).1 (hij ▸ hi)
      rw [upsertAll] at h2
      rw [h2, List.append_assoc]
      rfl

theorem gasPush_gt {α : Type} {k : Nat} {x : α} :
    ∀ {bg : List (Nat × List α)}, (∀ e ∈ bg, e.1 < k) →
    gasPush k x bg = bg ++ [(k, [x])] := by
  intro bg
  induction bg with
  | nil => intro _; rfl
  | cons e rest ih =>
      intro h
      obtain ⟨k1, b⟩ := e
      have hk1 : k1 < k := h (k1, b) (List.mem_cons_self _ _)
      rw [gasPush, if_neg (by omega), if_neg (by omega), List.cons_append,
        ih (fun e he => h e (List.mem_cons_of_mem _ he))]

theorem gasPush_lt {α : Type} {k : Nat} {x : α} :
    ∀ {bg : List (Nat × List α)}, (∀ e ∈ bg, k < e.1) →
    gasPush k x bg = (k, [x]) :: bg := by
  intro bg
  cases bg with
  | nil => intro _; rfl
  | cons e rest =>
      intro h
      obtain ⟨k1, b⟩ := e
      have hk1 : k < k1 := h (k1, b) (List.mem_cons_self _ _)
      rw [gasPush, if_neg (by omega), if_pos hk1]

theorem removeByInput_prefix_block {α : Type} [DecidableEq α] [Transaction α] (x : α) :
    ∀ (ins : List Nat) (rest : List (Nat × α)), ins.Nodup →
    (∀ i ∈ ins, i ∉ rest.map Prod.fst) →
    Pool.removeByInput x ins ((ins.map fun i => (i, x)) ++ rest) = some rest := by
  intro ins
  induction ins with
  | nil => intro rest _ _; rfl
  | cons j jr ih =>
      intro rest hnd hfresh
      rw [List.map_cons, List.cons_append, Pool.removeByInput]
      rw [show findAssoc j ((j, x) :: (List.map (fun i => (i, x)) jr ++ rest)) = some x from by
        rw [findAssoc, if_pos rfl]]
      simp only [if_true]
      rw [show eraseAssoc j ((j, x) :: (List.map (fun i => (i, x)) jr ++ rest))
            = List.map (fun i => (i, x)) jr ++ rest from by
        rw [eraseAssoc, if_pos rfl]]
      exact ih rest (List.Nodup.of_cons hnd)
        (fun i hi => hfresh i (List.mem_cons_of_mem j hi))

theorem canonical_insert_step {α : Type} [DecidableEq α] [Transaction α]
    (m : Nat) (l : List α) (op : α)
    (hfresh : ∀ i ∈ inputs op, i ∉ l.flatMap inputs)
    (hnd : (inputs op).Nodup)
    (hgt : ∀ o ∈ l, gas_price o < gas_price op)
    (hlen : l.length + 1 ≤ m) :
    (canonicalPool m l).insert op = some (canonicalPool m (l ++ [op])) := by
  unfold Pool.insert Pool.maybe_replace
  rw [conflictScan_all_none _ op false (inputs op) []
    (fun i hi => by
      apply findAssoc_eq_none
      rw [show (canonicalPool m l : Pool α).by_input
            = l.flatMap fun o => (inputs o).map fun i => (i, o) from rfl]
      rw [flatEntries_keys]
      exact hfresh i hi)]
  simp only []
  rw [show Pool.removeAll (canonicalPool m l) [] = some (canonicalPool m l) from rfl]
  simp only []
  rw [if_neg (by
    simp only [canonicalPool]
    omega)]
  have hbg : gasPush (gas_price op) op ((canonicalPool m l : Pool α).by_gas)
      = List.map (fun o => (gas_price o, [o])) (l ++ [op]) := by
    rw [show (canonicalPool m l : Pool α).by_gas
          = l.map fun o => (gas_price o, [o]) from rfl]
    rw [gasPush_gt (by
      intro e he
      obtain ⟨o, ho, rfl⟩ := List.mem_map.mp he
      exact hgt o ho)]
    simp [List.map_append]
  have hbi : upsertAll op (inputs op) ((canonicalPool m l : Pool α).by_input)
      = (l ++ [op]).flatMap fun o => (inputs o).map fun i => (i, o) := by
    rw [show (canonicalPool m l : Pool α).by_input
          = l.flatMap fun o => (inputs o).map fun i => (i, o) from rfl]
    rw [upsertAll_fresh hnd (by
      intro i hi
      rw [flatEntries_keys]
      exact hfresh i hi)]
    simp [List.flatMap_append]
  rw [Option.some.injEq]
  unfold canonicalPool
  rw [Pool.mk.injEq]
  exact ⟨rfl, by simp, hbg, hbi⟩

theorem remove_first_singleton {α : Type} [DecidableEq α] [Transaction α]
    (mx n : Nat) (a : α) (T : List (Nat × List α)) (rest : List (Nat × α))
    (hnda : (inputs a).Nodup)
    (hfr : ∀ i ∈ inputs a, i ∉ rest.map Prod.fst) :
    Pool.remove
      { max_len := mx, len := n + 1,
        by_gas := (gas_price a, [a]) :: T,
        by_input := (inputs a).map (fun i => (i, a)) ++ rest }
      a
    = some { max_len := mx, len := n, by_gas := T, by_input := rest } := by
  unfold Pool.remove
  simp only []
  rw [removeByInput_prefix_block a (inputs a) rest hnda hfr]
  simp only []
  rw [show gasFind (gas_price a) ((gas_price a, [a]) :: T) = some [a] from by
    rw [gasFind, if_pos rfl]]
  simp only []
  rw [show List.filter (fun e => decide (e ≠ a)) [a] = [] from by simp]
  rw [if_pos (by simp)]
  rw [if_neg (Nat.succ_ne_zero n)]
  rw [Option.some.injEq, Pool.mk.injEq]
  refine ⟨rfl, by omega, ?_, rfl⟩
  rw [show List.isEmpty ([] : List α) = true from rfl]
  rw [if_pos rfl]
  rw [gasEraseEntry, if_pos rfl]

theorem canonical_insert_evict {α : Type} [DecidableEq α] [Transaction α]
    (m : Nat) (l : List α) (op : α)
    (hfresh : ∀ i ∈ inputs op, i ∉ l.flatMap inputs)
    (hndop : (inputs op).Nodup)
    (hndl : (l.flatMap inputs).Nodup)
    (hgt : ∀ o ∈ l, gas_price o < gas_price op)
    (hlen : l.length = m) :
    (canonicalPool m l).insert op = some (canonicalPool m ((l ++ [op]).drop 1)) := by
  unfold Pool.insert Pool.maybe_replace
  rw [conflictScan_all_none _ op false (inputs op) []
    (fun i hi => by
      apply findAssoc_eq_none
      rw [show (canonicalPool m l : Pool α).by_input
            = l.flatMap fun o => (inputs o).map fun i => (i, o) from rfl]
      rw [flatEntries_keys]
      exact hfresh i hi)]
  simp only []
  rw [show Pool.removeAll (canonicalPool m l) [] = some (canonicalPool m l) from rfl]
  simp only []
  rw [if_pos (by
    simp only [canonicalPool]
    omega)]
  simp only [canonicalPool]
  cases l with
  | nil =>
      simp only [List.map_nil, List.flatMap_nil, List.length_nil]
      rw [show gasPush (gas_price op) op ([] : List (Nat × List α))
            = [(gas_price op, [op])] from rfl]
      simp only [List.head?_cons]
      rw [show upsertAll op (inputs op) ([] : List (Nat × α))
            = (inputs op).map (fun i => (i, op)) ++ [] from by
        rw [upsertAll_fresh hndop (by simp)]
        simp]
      rw [remove_first_singleton m 0 op [] [] hndop (by simp)]
      rfl
  | cons a l1 =>
      simp only [List.map_cons, List.head?_cons, List.flatMap_cons, List.length_cons]
      rw [gasPush_gt (by
        intro e he
        simp only [List.mem_cons] at he
        rcases he with he | he
        · subst he
          exact hgt a (List.mem_cons_self _ _)
        · obtain ⟨o, ho, rfl⟩ := List.mem_map.mp he
          exact hgt o (List.mem_cons_of_mem _ ho))]
      rw [List.cons_append, List.head?_cons]
      have hnda : (inputs a).Nodup := (List.nodup_append.mp hndl).1
      have hrest_fresh : ∀ i ∈ inputs a,
          i ∉ ((l1.flatMap fun o => (inputs o).map fun i => (i, o))
                ++ (inputs op).map (fun i => (i, op))).map Prod.fst := by
        intro i hi
        rw [List.map_append, flatEntries_keys]
        rw [show ((inputs op).map fun i => (i, op) : List (Nat × α)).map Prod.fst
              = inputs op from by
          rw [List.map_map]
          rw [show (Prod.fst ∘ fun i => (i, op)) = id from rfl, List.map_id]]
        intro hmem
        rcases List.mem_append.mp hmem with hm1 | hm2
        · exact (List.nodup_append.mp hndl).2.2 hi hm1
        · exact hfresh i hm2 (List.mem_append.mpr (Or.inl hi))
      rw [show upsertAll op (inputs op)
            (((inputs a).map fun i => (i, a))
              ++ l1.flatMap fun o => (inputs o).map fun i => (i, o))
            = (inputs a).map (fun i => (i, a))
              ++ ((l1.flatMap fun o => (inputs o).map fun i => (i, o))
                  ++ (inputs op).map (fun i => (i, op))) from by
        rw [upsertAll_fresh hndop (by
          intro i hi
          rw [List.map_append, flatEntries_keys]
          rw [show (((inputs a).map fun i => (i, a) : List (Nat × α)).map Prod.fst)
                = inputs a from by
            rw [List.map_map]
            rw [show (Prod.fst ∘ fun i => (i, a)) = id from rfl, List.map_id]]
          intro hmem
          rcases List.mem_append.mp hmem with hm1 | hm2
          · exact hfresh i hi (List.mem_append.mpr (Or.inl hm1))
          · exact hfresh i hi (List.mem_append.mpr (Or.inr hm2)))]
        rw [List.append_assoc]]
      simp only []
      rw [List.head?_cons]
      simp only []
      rw [remove_first_singleton m (l1.length + 1) a
            (List.map (fun o => (gas_price o, [o])) l1 ++ [(gas_price op, [op])])
            ((l1.flatMap fun o => (inputs o).map fun i => (i, o))
              ++ (inputs op).map (fun i => (i, op)))
            hnda hrest_fresh]
      rw [Option.some.injEq]
      rw [show List.drop 1 (a :: l1 ++ [op]) = l1 ++ [op] from rfl]
      rw [Pool.mk.injEq]
      refine ⟨rfl, by simp, by simp [List.map_append], by simp [List.flatMap_append]⟩

theorem foldInsert_canonical {α : Type} [DecidableEq α] [Transaction α] (m : Nat) :
    ∀ (rest l : List α),
    (((l ++ rest).flatMap inputs).Nodup) →
    (l ++ rest).Pairwise (fun a b => gas_price a < gas_price b) →
    l.length + rest.length ≤ m →
    Pool.foldInsert (canonicalPool m l) rest = some (canonicalPool m (l ++ rest)) := by
  intro rest
  induction rest with
  | nil =>
      intro l _ _ _
      rw [List.append_nil]
      rfl
  | cons op rest1 ih =>
      intro l hnd hpair hlen
      rw [Pool.foldInsert]
      have hnd2 := hnd
      rw [List.flatMap_append, List.flatMap_cons, List.nodup_append] at hnd2
      have hndmid := hnd2.2.1
      rw [List.nodup_append] at hndmid
      have hstep := canonical_insert_step m l op
        (fun i hi hmem => hnd2.2.2 hmem (List.mem_append.mpr (Or.inl hi)))
        hndmid.1
        (fun o ho => (List.pairwise_append.mp hpair).2.2 o ho op (List.mem_cons_self _ _))
        (by simp at hlen; omega)
      rw [hstep]
      have hrec := ih (l ++ [op])
        (by
          rw [List.append_assoc]
          simpa using hnd)
        (by
          rw [List.append_assoc]
          simpa using hpair)
        (by simp at hlen ⊢; omega)
      rw [List.append_assoc] at hrec
      simpa using hrec

theorem foldInsert_append {α : Type} [DecidableEq α] [Transaction α] :
    ∀ (xs ys : List α) (p : Pool α),
    Pool.foldInsert p (xs ++ ys)
      = match Pool.foldInsert p xs with
        | none => none
        | some q => Pool.foldInsert q ys := by
  intro xs
  induction xs with
  | nil => intro ys p; rfl
  | cons x xr ih =>
      intro ys p
      rw [List.cons_append, Pool.foldInsert, Pool.foldInsert]
      cases hx : p.insert x with
      | none => rfl
      | some q => exact ih ys q

theorem canonical_iterList {α : Type} [DecidableEq α] [Transaction α] (m : Nat) :
    ∀ (l : List α), (canonicalPool m l : Pool α).iterList = l.reverse := by
  intro l
  unfold Pool.iterList canonicalPool
  simp only [List.map_map]
  rw [show (Prod.snd ∘ fun o : α => (gas_price o, [o])) = fun o : α => [o] from rfl]
  induction l with
  | nil => rfl
  | cons a l1 ih =>
      simp only [List.map_cons, List.reverse_cons, List.flatten_append, ih]
      simp

/-- Claim C6 (confirmed).  Part 1: every pool state reachable from
`Pool::default()` by successful public operations keeps
`len() ≤ max_len`, and `max_len` stays `DEFAULT_MAX_LEN = 1024`.
Part 2: inserting `max_len + 1` operations whose inputs are all distinct
(pairwise non-conflicting) with strictly increasing gas prices into an
empty pool of capacity `max_len` succeeds, evicts exactly the
lowest-priced (first) operation, and leaves precisely the other
`max_len` operations, in descending gas-price iteration order. -/
theorem c6_pool_bounded :
    (∀ {α : Type} [DecidableEq α] [Transaction α] (p : Pool α), Reach p →
       p.len ≤ p.max_len ∧ p.max_len = Pool.DEFAULT_MAX_LEN) ∧
    (∀ {α : Type} [DecidableEq α] [Transaction α] (m : Nat) (ops : List α),
       ops.length = m + 1 →
       (ops.flatMap inputs).Nodup →
       ops.Pairwise (fun a b => gas_price a < gas_price b) →
       Pool.foldInsert { Pool.defaultPool α with max_len := m } ops
           = some (canonicalPool m (ops.drop 1)) ∧
         (canonicalPool m (ops.drop 1) : Pool α).iterList = (ops.drop 1).reverse ∧
         (canonicalPool m (ops.drop 1) : Pool α).len = m) := by
  constructor
  · intro α _ _ p h
    exact c6_part1 h
  · intro α _ _ m ops hlen hnd hpair
    refine ⟨?_, canonical_iterList m _, by
      simp only [canonicalPool]
      simp [hlen]⟩
    obtain ⟨last, hlast⟩ : ∃ y, ops.drop m = [y] := by
      have h1 : (ops.drop m).length = 1 := by
        rw [List.length_drop, hlen]
        omega
      cases hd : ops.drop m with
      | nil => rw [hd] at h1; cases h1
      | cons y t =>
          rw [hd] at h1
          simp only [List.length_cons] at h1
          have ht : t = [] := List.eq_nil_of_length_eq_zero (by omega)
          exact ⟨y, by rw [ht]⟩
    have hsplit : ops.take m ++ [last] = ops := by
      rw [← hlast, List.take_append_drop]
    have htklen : (ops.take m).length = m := by
      rw [List.length_take, hlen]
      omega
    rw [← hsplit] at hnd hpair
    have hnd2 := hnd
    rw [List.flatMap_append, List.nodup_append] at hnd2
    have hlastnd : (inputs last).Nodup := by
      have := hnd2.2.1
      simpa using this
    have hpair2 := List.pairwise_append.mp hpair
    have hphase1 : Pool.foldInsert { Pool.defaultPool α with max_len := m } (ops.take m)
        = some (canonicalPool m (ops.take m)) := by
      have hc := foldInsert_canonical m (ops.take m) []
        (by simpa using hnd2.1)
        (by simpa using hpair2.1)
        (by simp [htklen])
      rw [show canonicalPool m ([] : List α)
            = { Pool.defaultPool α with max_len := m } from rfl] at hc
      simpa using hc
    rw [← hsplit, foldInsert_append, hphase1]
    simp only []
    rw [Pool.foldInsert]
    rw [canonical_insert_evict m (ops.take m) last
      (by
        intro i hi hmem
        exact hnd2.2.2 hmem (by simpa using hi))
      hlastnd
      hnd2.1
      (fun o ho => hpair2.2.2 o ho last (List.mem_cons_self _ _))
      htklen]
    rfl

theorem c6_witness :
    ((Pool.defaultPool Txn).len ≤ (Pool.defaultPool Txn).max_len ∧
       (Pool.defaultPool Txn).max_len = Pool.DEFAULT_MAX_LEN) ∧
    ([Txn.transfer (mkTransfer 1 1 2), Txn.transfer (mkTransfer 2 3 4)].length = 1 + 1 ∧
       (([Txn.transfer (mkTransfer 1 1 2), Txn.transfer (mkTransfer 2 3 4)].flatMap
           inputs).Nodup) ∧
       [Txn.transfer (mkTransfer 1 1 2), Txn.transfer (mkTransfer 2 3 4)].Pairwise
         (fun a b => gas_price a < gas_price b)) ∧
    (Pool.foldInsert { Pool.defaultPool Txn with max_len := 1 }
         [Txn.transfer (mkTransfer 1 1 2), Txn.transfer (mkTransfer 2 3 4)]
       = some (canonicalPool 1
           ([Txn.transfer (mkTransfer 1 1 2), Txn.transfer (mkTransfer 2 3 4)].drop 1)) ∧
     (canonicalPool 1
         ([Txn.transfer (mkTransfer 1 1 2), Txn.transfer (mkTransfer 2 3 4)].drop 1)
         : Pool Txn).iterList
       = ([Txn.transfer (mkTransfer 1 1 2), Txn.transfer (mkTransfer 2 3 4)].drop 1).reverse ∧
     (canonicalPool 1
         ([Txn.transfer (mkTransfer 1 1 2), Txn.transfer (mkTransfer 2 3 4)].drop 1)
         : Pool Txn).len = 1) := by
  refine ⟨c6_pool_bounded.1 (Pool.defaultPool Txn) Reach.init,
    ⟨by decide, by decide, by decide⟩, ?_⟩
  exact c6_pool_bounded.2 1
    [Txn.transfer (mkTransfer 1 1 2), Txn.transfer (mkTransfer 2 3 4)]
    (by decide) (by decide) (by decide)

theorem findAssoc_eraseAssoc_ne {α : Type} {k j : Nat} (hkj : k ≠ j) :
    ∀ {l : List (Nat × α)}, findAssoc k (eraseAssoc j l) = findAssoc k l := by
  intro l
  induction l with
  | nil => rfl
  | cons e rest ih =>
      obtain ⟨k1, v⟩ := e
      by_cases h1 : k1 = j
      · subst h1
        rw [eraseAssoc, if_pos rfl, findAssoc, if_neg (fun he => hkj he.symm)]
      · rw [eraseAssoc, if_neg h1, findAssoc, findAssoc]
        by_cases h2 : k1 = k
        · rw [if_pos h2, if_pos h2]
        · rw [if_neg h2, if_neg h2, ih]

theorem findAssoc_upsertAssoc_self {α : Type} {k : Nat} {x : α} :
    ∀ {l : List (Nat × α)}, findAssoc k (upsertAssoc k x l) = some x := by
  intro l
  induction l with
  | nil => rw [upsertAssoc, findAssoc, if_pos rfl]
  | cons e rest ih =>
      obtain ⟨k1, v⟩ := e
      by_cases h1 : k1 = k
      · rw [upsertAssoc, if_pos h1, findAssoc, if_pos rfl]
      · rw [upsertAssoc, if_neg h1, findAssoc, if_neg h1, ih]

theorem findAssoc_upsertAssoc_ne {α : Type} {k j : Nat} {x : α} (hkj : k ≠ j) :
    ∀ {l : List (Nat × α)}, findAssoc k (upsertAssoc j x l) = findAssoc k l := by
  intro l
  induction l with
  | nil => simp [upsertAssoc, findAssoc, hkj.symm]
  | cons e rest ih =>
      obtain ⟨k1, v⟩ := e
      by_cases h1 : k1 = j
      · subst h1
        simp [upsertAssoc, findAssoc, hkj.symm]
      · simp only [upsertAssoc, if_neg h1, findAssoc]
        by_cases h2 : k1 = k
        · simp [h2]
        · simp [h2, ih]

theorem upsertAll_lookup_not_mem {α : Type} {k : Nat} {x : α} :
    ∀ {ins : List Nat} {l : List (Nat × α)}, k ∉ ins →
    findAssoc k (upsertAll x ins l) = findAssoc k l := by
  intro ins
  induction ins with
  | nil => intro l _; rfl
  | cons j jr ih =>
      intro l hk
      rw [upsertAll, List.foldl_cons]
      rw [show List.foldl (fun acc k => upsertAssoc k x acc) (upsertAssoc j x l) jr
            = upsertAll x jr (upsertAssoc j x l) from rfl]
      rw [ih (fun hm => hk (List.mem_cons_of_mem j hm))]
      exact findAssoc_upsertAssoc_ne (fun he => hk (by rw [he]; exact List.mem_cons_self j jr))

theorem upsertAll_lookup_self {α : Type} {k : Nat} {x : α} :
    ∀ {ins : List Nat} {l : List (Nat × α)}, k ∈ ins →
    findAssoc k (upsertAll x ins l) = some x := by
  intro ins
  induction ins with
  | nil => intro l h; cases h
  | cons j jr ih =>
      intro l hk
      rw [upsertAll, List.foldl_cons]
      rw [show List.foldl (fun acc k => upsertAssoc k x acc) (upsertAssoc j x l) jr
            = upsertAll x jr (upsertAssoc j x l) from rfl]
      by_cases hmem : k ∈ jr
      · exact ih hmem
      · have hkj : k = j := by
          rcases List.mem_cons.mp hk with h | h
          · exact h
          · exact absurd h hmem
        subst hkj
        rw [upsertAll_lookup_not_mem hmem]
        exact findAssoc_upsertAssoc_self

theorem findAssoc_eq_none_iff {α : Type} {k : Nat} :
    ∀ {l : List (Nat × α)}, findAssoc k l = none ↔ k ∉ l.map Prod.fst := by
  intro l
  induction l with
  | nil => simp [findAssoc]
  | cons e rest ih =>
      obtain ⟨k1, v⟩ := e
      by_cases h1 : k1 = k
      · subst h1
        simp [findAssoc]
      · rw [findAssoc, if_neg h1, ih]
        simp only [List.map_cons, List.mem_cons]
        constructor
        · intro h2 hor
          rcases hor with he | hm
          · exact h1 he.symm
          · exact h2 hm
        · intro h2 hm
          exact h2 (Or.inr hm)

theorem eraseAssoc_sublist {α : Type} (k : Nat) :
    ∀ (l : List (Nat × α)), List.Sublist (eraseAssoc k l) l := by
  intro l
  induction l with
  | nil => exact List.Sublist.refl _
  | cons e rest ih =>
      obtain ⟨k1, v⟩ := e
      by_cases h1 : k1 = k
      · rw [eraseAssoc, if_pos h1]
        exact List.sublist_cons_self _ _
      · rw [eraseAssoc, if_neg h1]
        exact List.Sublist.cons₂ _ ih

theorem removeByInput_sublist {α : Type} [DecidableEq α] [Transaction α] {x : α} :
    ∀ {ins : List Nat} {bi bi1 : List (Nat × α)},
    Pool.removeByInput x ins bi = some bi1 → List.Sublist bi1 bi := by
  intro ins
  induction ins with
  | nil =>
      intro bi bi1 h
      rw [Pool.removeByInput, Option.some.injEq] at h
      subst h
      exact List.Sublist.refl _
  | cons j jr ih =>
      intro bi bi1 h
      rw [Pool.removeByInput] at h
      cases hf : findAssoc j bi with
      | none => rw [hf] at h; cases h
      | some v =>
          rw [hf] at h
          simp only [] at h
          split at h
          · exact (ih h).trans (eraseAssoc_sublist j bi)
          · cases h

theorem findAssoc_none_of_sublist {α : Type} {k : Nat} {l1 l2 : List (Nat × α)}
    (hsub : List.Sublist l1 l2) (h : findAssoc k l2 = none) :
    findAssoc k l1 = none := by
  rw [findAssoc_eq_none_iff] at h ⊢
  exact fun hm => h ((hsub.map Prod.fst).mem hm)

theorem findAssoc_eraseAssoc_self_none {α : Type} {k : Nat} :
    ∀ {l : List (Nat × α)}, (l.map Prod.fst).Nodup →
    findAssoc k (eraseAssoc k l) = none := by
  intro l
  induction l with
  | nil => intro _; rfl
  | cons e rest ih =>
      intro hnd
      obtain ⟨k1, v⟩ := e
      simp only [List.map_cons, List.nodup_cons] at hnd
      by_cases h1 : k1 = k
      · subst h1
        rw [eraseAssoc, if_pos rfl, findAssoc_eq_none_iff]
        exact hnd.1
      · rw [eraseAssoc, if_neg h1, findAssoc, if_neg h1]
        exact ih hnd.2

theorem removeByInput_lookup_none {α : Type} [DecidableEq α] [Transaction α] {x : α} :
    ∀ {ins : List Nat} {bi bi1 : List (Nat × α)}, (bi.map Prod.fst).Nodup →
    Pool.removeByInput x ins bi = some bi1 →
    ∀ i ∈ ins, findAssoc i bi1 = none := by
  intro ins
  induction ins with
  | nil => intro bi bi1 _ _ i hi; cases hi
  | cons j jr ih =>
      intro bi bi1 hnd h i hi
      rw [Pool.removeByInput] at h
      cases hf : findAssoc j bi with
      | none => rw [hf] at h; cases h
      | some v =>
          rw [hf] at h
          simp only [] at h
          split at h
          · have hnd2 : ((eraseAssoc j bi).map Prod.fst).Nodup :=
              ((eraseAssoc_sublist j bi).map Prod.fst).nodup hnd
            rcases List.mem_cons.mp hi with hij | hijr
            · subst hij
              exact findAssoc_none_of_sublist (removeByInput_sublist h)
                (findAssoc_eraseAssoc_self_none hnd)
            · exact ih hnd2 h i hijr
          · cases h

theorem removeByInput_found {α : Type} [DecidableEq α] [Transaction α] {x : α} :
    ∀ {ins : List Nat} {bi bi1 : List (Nat × α)},
    Pool.removeByInput x ins bi = some bi1 →
    ∀ i ∈ ins, findAssoc i bi ≠ none := by
  intro ins
  induction ins with
  | nil => intro bi bi1 _ i hi; cases hi
  | cons j jr ih =>
      intro bi bi1 h i hi
      rw [Pool.removeByInput] at h
      cases hf : findAssoc j bi with
      | none => rw [hf] at h; cases h
      | some v =>
          rw [hf] at h
          simp only [] at h
          split at h
          · rcases List.mem_cons.mp hi with hij | hijr
            · subst hij
              rw [hf]
              exact fun he => by cases he
            · intro hnone
              exact ih h i hijr
                (findAssoc_none_of_sublist (eraseAssoc_sublist j bi) hnone)
          · cases h

theorem removeByInput_ins_nodup {α : Type} [DecidableEq α] [Transaction α] {x : α} :
    ∀ {ins : List Nat} {bi bi1 : List (Nat × α)}, (bi.map Prod.fst).Nodup →
    Pool.removeByInput x ins bi = some bi1 → ins.Nodup := by
  intro ins
  induction ins with
  | nil => intro bi bi1 _ _; exact List.nodup_nil
  | cons j jr ih =>
      intro bi bi1 hnd h
      rw [Pool.removeByInput] at h
      cases hf : findAssoc j bi with
      | none => rw [hf] at h; cases h
      | some v =>
          rw [hf] at h
          simp only [] at h
          split at h
          · have hnd2 : ((eraseAssoc j bi).map Prod.fst).Nodup :=
              ((eraseAssoc_sublist j bi).map Prod.fst).nodup hnd
            refine List.nodup_cons.mpr ⟨?_, ih hnd2 h⟩
            intro hmem
            exact removeByInput_found h j hmem (findAssoc_eraseAssoc_self_none hnd)
          · cases h

theorem upsertAssoc_keys {α : Type} {k : Nat} {x : α} :
    ∀ {l : List (Nat × α)},
    (upsertAssoc k x l).map Prod.fst
      = if k ∈ l.map Prod.fst then l.map Prod.fst else l.map Prod.fst ++ [k] := by
  intro l
  induction l with
  | nil => simp [upsertAssoc]
  | cons e rest ih =>
      obtain ⟨k1, v⟩ := e
      by_cases h1 : k1 = k
      · subst h1
        simp [upsertAssoc]
      · rw [upsertAssoc, if_neg h1]
        simp only [List.map_cons, ih]
        by_cases h2 : k ∈ rest.map Prod.fst
        · rw [if_pos h2, if_pos (List.mem_cons_of_mem _ h2)]
        · rw [if_neg h2, if_neg (by
            intro hm
            rcases List.mem_cons.mp hm with hm | hm
            · exact h1 hm.symm
            · exact h2 hm)]
          rfl

theorem nodup_keys_upsertAssoc {α : Type} {k : Nat} {x : α} {l : List (Nat × α)}
    (hnd : (l.map Prod.fst).Nodup) :
    ((upsertAssoc k x l).map Prod.fst).Nodup := by
  rw [upsertAssoc_keys]
  by_cases h : k ∈ l.map Prod.fst
  · rw [if_pos h]; exact hnd
  · rw [if_neg h]
    simp [List.nodup_append, hnd, h]

theorem nodup_keys_upsertAll {α : Type} {x : α} :
    ∀ {ins : List Nat} {l : List (Nat × α)}, (l.map Prod.fst).Nodup →
    ((upsertAll x ins l).map Prod.fst).Nodup := by
  intro ins
  induction ins with
  | nil => intro l h; exact h
  | cons j jr ih =>
      intro l h
      rw [upsertAll, List.foldl_cons]
      exact ih (nodup_keys_upsertAssoc h)

theorem removeByInput_preserve_other {α : Type} [DecidableEq α] [Transaction α]
    {v : α} {k : Nat} {w : α} :
    ∀ {ins : List Nat} {bi bi1 : List (Nat × α)},
    Pool.removeByInput v ins bi = some bi1 →
    findAssoc k bi = some w → w ≠ v →
    findAssoc k bi1 = some w := by
  intro ins
  induction ins with
  | nil =>
      intro bi bi1 h hk hwv
      rw [Pool.removeByInput, Option.some.injEq] at h
      subst h
      exact hk
  | cons j jr ih =>
      intro bi bi1 h hk hwv
      rw [Pool.removeByInput] at h
      cases hf : findAssoc j bi with
      | none => rw [hf] at h; cases h
      | some u =>
          rw [hf] at h
          simp only [] at h
          split at h
          · rename_i huv
            have hkj : k ≠ j := by
              intro he
              subst he
              rw [hf] at hk
              rw [Option.some.injEq] at hk
              exact hwv (hk ▸ huv)
            exact ih h (by rw [findAssoc_eraseAssoc_ne hkj]; exact hk) hwv
          · cases h

theorem findAssoc_append_right {α : Type} {k : Nat} :
    ∀ {l1 l2 : List (Nat × α)}, k ∉ l1.map Prod.fst →
    findAssoc k (l1 ++ l2) = findAssoc k l2 := by
  intro l1
  induction l1 with
  | nil => intro l2 _; rfl
  | cons e rest ih =>
      intro l2 h
      obtain ⟨k1, v⟩ := e
      simp only [List.map_cons, List.mem_cons] at h
      push_neg at h
      rw [List.cons_append, findAssoc, if_neg (fun he => h.1 he.symm)]
      exact ih h.2

theorem eraseAssoc_append_right {α : Type} {k : Nat} :
    ∀ {l1 l2 : List (Nat × α)}, k ∉ l1.map Prod.fst →
    eraseAssoc k (l1 ++ l2) = l1 ++ eraseAssoc k l2 := by
  intro l1
  induction l1 with
  | nil => intro l2 _; rfl
  | cons e rest ih =>
      intro l2 h
      obtain ⟨k1, v⟩ := e
      simp only [List.map_cons, List.mem_cons] at h
      push_neg at h
      rw [List.cons_append, eraseAssoc, if_neg (fun he => h.1 he.symm), ih h.2]
      rfl

theorem removeByInput_suffix_block {α : Type} [DecidableEq α] [Transaction α] (x : α) :
    ∀ (ins : List Nat) (rest : List (Nat × α)), ins.Nodup →
    (∀ i ∈ ins, i ∉ rest.map Prod.fst) →
    Pool.removeByInput x ins (rest ++ ins.map (fun i => (i, x))) = some rest := by
  intro ins
  induction ins with
  | nil => intro rest _ _; simp [Pool.removeByInput]
  | cons j jr ih =>
      intro rest hnd hfresh
      rw [Pool.removeByInput]
      rw [findAssoc_append_right (hfresh j (List.mem_cons_self j jr))]
      rw [show findAssoc j ((j :: jr).map fun i => (i, x)) = some x from by
        rw [List.map_cons, findAssoc, if_pos rfl]]
      simp only [if_true]
      rw [eraseAssoc_append_right (hfresh j (List.mem_cons_self j jr))]
      rw [show eraseAssoc j ((j :: jr).map fun i => (i, x)) = jr.map fun i => (i, x) from by
        rw [List.map_cons, eraseAssoc, if_pos rfl]]
      exact ih rest (List.Nodup.of_cons hnd)
        (fun i hi => hfresh i (List.mem_cons_of_mem j hi))

theorem remove_min_suffix {α : Type} [DecidableEq α] [Transaction α]
    (mx n : Nat) (op : α) (T : List (Nat × List α)) (rest : List (Nat × α))
    (hnd : (inputs op).Nodup)
    (hfr : ∀ i ∈ inputs op, i ∉ rest.map Prod.fst) :
    Pool.remove
      { max_len := mx, len := n + 1,
        by_gas := (gas_price op, [op]) :: T,
        by_input := rest ++ (inputs op).map (fun i => (i, op)) }
      op
    = some { max_len := mx, len := n, by_gas := T, by_input := rest } := by
  unfold Pool.remove
  simp only []
  rw [removeByInput_suffix_block op (inputs op) rest hnd hfr]
  simp only []
  rw [show gasFind (gas_price op) ((gas_price op, [op]) :: T) = some [op] from by
    rw [gasFind, if_pos rfl]]
  simp only []
  rw [show List.filter (fun e => decide (e ≠ op)) [op] = [] from by simp]
  rw [if_pos (by simp)]
  rw [if_neg (Nat.succ_ne_zero n)]
  rw [Option.some.injEq, Pool.mk.injEq]
  refine ⟨rfl, by omega, ?_, rfl⟩
  rw [show List.isEmpty ([] : List α) = true from rfl]
  rw [if_pos rfl]
  rw [gasEraseEntry, if_pos rfl]

theorem gasEraseEntry_sublist {α : Type} (k : Nat) :
    ∀ (l : List (Nat × List α)), List.Sublist (gasEraseEntry k l) l := by
  intro l
  induction l with
  | nil => exact List.Sublist.refl _
  | cons e rest ih =>
      obtain ⟨k1, b⟩ := e
      by_cases h1 : k1 = k
      · rw [gasEraseEntry, if_pos h1]
        exact List.sublist_cons_self _ _
      · rw [gasEraseEntry, if_neg h1]
        exact List.Sublist.cons₂ _ ih

theorem gasSetBucket_keys {α : Type} (k : Nat) (b : List α) :
    ∀ (l : List (Nat × List α)),
    (gasSetBucket k b l).map Prod.fst = l.map Prod.fst := by
  intro l
  induction l with
  | nil => rfl
  | cons e rest ih =>
      obtain ⟨k1, b1⟩ := e
      by_cases h1 : k1 = k
      · rw [gasSetBucket, if_pos h1]
        simp [h1]
      · rw [gasSetBucket, if_neg h1]
        simp [ih]

theorem gasFind_mem {α : Type} {k : Nat} :
    ∀ {l : List (Nat × List α)} {b : List α}, gasFind k l = some b → (k, b) ∈ l := by
  intro l
  induction l with
  | nil => intro b h; cases h
  | cons e rest ih =>
      intro b h
      obtain ⟨k1, b1⟩ := e
      rw [gasFind] at h
      by_cases h1 : k1 = k
      · rw [if_pos h1, Option.some.injEq] at h
        subst h1
        subst h
        exact List.mem_cons_self _ _
      · rw [if_neg h1] at h
        exact List.mem_cons_of_mem _ (ih h)

theorem gasSetBucket_mem {α : Type} {k : Nat} {b : List α} :
    ∀ {l : List (Nat × List α)} {e : Nat × List α}, e ∈ gasSetBucket k b l →
    e ∈ l ∨ e = (k, b) := by
  intro l
  induction l with
  | nil => intro e h; cases h
  | cons e1 rest ih =>
      intro e h
      obtain ⟨k1, b1⟩ := e1
      by_cases h1 : k1 = k
      · rw [gasSetBucket, if_pos h1] at h
        rcases List.mem_cons.mp h with he | hm
        · subst h1
          exact Or.inr (by rw [he])
        · exact Or.inl (List.mem_cons_of_mem _ hm)
      · rw [gasSetBucket, if_neg h1] at h
        rcases List.mem_cons.mp h with he | hm
        · exact Or.inl (by rw [he]; exact List.mem_cons_self _ _)
        · rcases ih hm with hm2 | hm2
          · exact Or.inl (List.mem_cons_of_mem _ hm2)
          · exact Or.inr hm2

theorem remove_WF {α : Type} [DecidableEq α] [Transaction α] {p q : Pool α} {x : α}
    (hwf : PoolWF p) (h : p.remove x = some q) : PoolWF q := by
  obtain ⟨hs, ha, hn⟩ := hwf
  unfold Pool.remove at h
  cases hbi : Pool.removeByInput x (inputs x) p.by_input with
  | none => rw [hbi] at h; cases h
  | some bi =>
      rw [hbi] at h
      cases hb : gasFind (gas_price x) p.by_gas with
      | none => rw [hb] at h; cases h
      | some bucket =>
          rw [hb] at h
          simp only at h
          split at h
          · split at h
            · cases h
            · rw [Option.some.injEq] at h
              subst h
              refine ⟨?_, ?_, ((removeByInput_sublist hbi).map Prod.fst).nodup hn⟩
              · simp only []
                split
                · exact hs.sublist ((gasEraseEntry_sublist _ _).map Prod.fst)
                · rw [gasSetBucket_keys]
                  exact hs
              · simp only []
                intro e he y hy
                split at he
                · exact ha e ((gasEraseEntry_sublist _ _).mem he) y hy
                · rcases gasSetBucket_mem he with hm | hm
                  · exact ha e hm y hy
                  · subst hm
                    simp only []
                    simp only at hy
                    exact ha _ (gasFind_mem hb) y (List.mem_of_mem_filter hy)
          · cases h

theorem removeAll_WF {α : Type} [DecidableEq α] [Transaction α] :
    ∀ {l : List α} {p q : Pool α}, PoolWF p → Pool.removeAll p l = some q →
    PoolWF q := by
  intro l
  induction l with
  | nil =>
      intro p q hwf h
      rw [Pool.removeAll, Option.some.injEq] at h
      subst h
      exact hwf
  | cons r rest ih =>
      intro p q hwf h
      rw [Pool.removeAll] at h
      cases hr : p.remove r with
      | none => rw [hr] at h; cases h
      | some p1 =>
          rw [hr] at h
          exact ih (remove_WF hwf hr) h

theorem evict_self_analysis {α : Type} [DecidableEq α] [Transaction α]
    (p1 : Pool α) (op : α) (k0 : Nat) (b0 bucket : List α)
    (hs1 : (p1.by_gas.map Prod.fst).Pairwise (fun a b => a < b))
    (ha1 : ∀ e ∈ p1.by_gas, ∀ x ∈ e.2, gas_price x = e.1)
    (hh : (gasPush (gas_price op) op p1.by_gas).head? = some (k0, b0))
    (hv : b0.head? = some op)
    (hbk : gasFind (gas_price op) (gasPush (gas_price op) op p1.by_gas) = some bucket)
    (hkeq : bucket.length = (bucket.filter (fun e => e ≠ op)).length + 1) :
    bucket = [op] ∧
    (∀ e ∈ gasEraseEntry (gas_price op) (gasPush (gas_price op) op p1.by_gas),
        gas_price op < e.1) := by
  cases hbg : p1.by_gas with
  | nil =>
      rw [hbg] at hbk
      rw [show gasPush (gas_price op) op ([] : List (Nat × List α))
            = [(gas_price op, [op])] from rfl] at hbk
      rw [gasFind, if_pos rfl, Option.some.injEq] at hbk
      subst hbk
      refine ⟨rfl, ?_⟩
      intro e he
      rw [show gasPush (gas_price op) op ([] : List (Nat × List α))
            = [(gas_price op, [op])] from rfl] at he
      rw [gasEraseEntry, if_pos rfl] at he
      cases he
  | cons hd G =>
      obtain ⟨k1, b1⟩ := hd
      rw [hbg] at hbk hh hs1 ha1
      rcases Nat.lt_trichotomy (gas_price op) k1 with hlt | heq | hgt
      · rw [gasPush, if_neg (by omega), if_pos hlt] at hbk hh
        rw [gasFind, if_pos rfl, Option.some.injEq] at hbk
        subst hbk
        refine ⟨rfl, ?_⟩
        intro e he
        rw [gasPush, if_neg (by omega), if_pos hlt, gasEraseEntry, if_pos rfl] at he
        rcases List.mem_cons.mp he with he1 | he2
        · rw [he1]
          exact hlt
        · have hk1e : k1 < e.1 := by
            simp only [List.map_cons] at hs1
            have := (List.pairwise_cons.mp hs1).1 e.1
              (List.mem_map.mpr ⟨e, he2, rfl⟩)
            exact this
          omega
      · rw [gasPush, if_pos heq] at hbk hh
        rw [gasFind, if_pos heq.symm, Option.some.injEq] at hbk
        subst hbk
        rw [List.head?_cons, Option.some.injEq, Prod.mk.injEq] at hh
        cases hb1 : b1 with
        | nil =>
            refine ⟨by simp [hb1], ?_⟩
            intro e he
            rw [gasPush, if_pos heq, gasEraseEntry, if_pos heq.symm] at he
            simp only [List.map_cons] at hs1
            have := (List.pairwise_cons.mp hs1).1 e.1
              (List.mem_map.mpr ⟨e, he, rfl⟩)
            omega
        | cons c b1t =>
            exfalso
            have hb0 : b0 = (c :: b1t) ++ [op] := by rw [← hh.2, hb1]
            rw [hb0, List.cons_append, List.head?_cons, Option.some.injEq] at hv
            rw [hb1, hv] at hkeq
            have hfle2 : ((b1t ++ [op]).filter (fun e => decide (e ≠ op))).length
                ≤ b1t.length := by
              rw [List.filter_append]
              simp only [List.length_append]
              have h1 : ((b1t.filter (fun e => decide (e ≠ op))).length ≤ b1t.length) :=
                List.length_filter_le _ _
              have h2 : ((([op] : List α).filter (fun e => decide (e ≠ op))).length = 0) := by
                simp
              omega
            simp only [List.cons_append, List.filter_cons] at hkeq
            rw [if_neg (by simp)] at hkeq
            simp only [List.length_cons, List.length_append] at hkeq
            omega
      · exfalso
        rw [gasPush, if_neg (by omega), if_neg (by omega)] at hh
        rw [List.head?_cons, Option.some.injEq, Prod.mk.injEq] at hh
        have hopb1 : op ∈ b1 := by
          rw [← hh.2] at hv
          exact List.mem_of_mem_head? hv
        have := ha1 (k1, b1) (List.mem_cons_self _ _) op hopb1
        simp only [] at this
        omega

theorem insert_noop_of_conflict {α : Type} [DecidableEq α] [Transaction α]
    (p : Pool α) (op c : α) (i : Nat)
    (hi : i ∈ inputs op)
    (hfound : findAssoc i p.by_input = some c)
    (hgp : gas_price op ≤ gas_price c) :
    p.insert op = some p := by
  unfold Pool.insert Pool.maybe_replace
  rw [conflictScan_reject p.by_input op c i (inputs op) [] hi hfound hgp]

theorem remove_some_by_input {α : Type} [DecidableEq α] [Transaction α]
    {p q : Pool α} {x : α} (h : p.remove x = some q) :
    Pool.removeByInput x (inputs x) p.by_input = some q.by_input := by
  unfold Pool.remove at h
  cases hbi : Pool.removeByInput x (inputs x) p.by_input with
  | none => rw [hbi] at h; cases h
  | some bi =>
      rw [hbi] at h
      cases hb : gasFind (gas_price x) p.by_gas with
      | none => rw [hb] at h; cases h
      | some bucket =>
          rw [hb] at h
          simp only at h
          split at h
          · split at h
            · cases h
            · rw [Option.some.injEq] at h
              subst h
              rfl
          · cases h

/-- Claim C8, amended.  For every well-formed pool state and every
operation with at least one observed input, if `insert(op)` succeeds then
inserting `op` again immediately leaves the pool literally unchanged
(same length, same indexes, same iteration sequence).  A transfer with
both inputs zero is outside this statement: it has an empty conflict set
and is re-appended by every insert. -/
theorem c8_insert_idempotent {α : Type} [DecidableEq α] [Transaction α]
    (p q : Pool α) (op : α)
    (hwf : PoolWF p)
    (hne : inputs op ≠ [])
    (hins : p.insert op = some q) :
    q.insert op = some q := by
  obtain ⟨i0, restIns, hinsEq⟩ : ∃ i0 r, inputs op = i0 :: r := by
    cases hi : inputs op with
    | nil => exact absurd hi hne
    | cons a b => exact ⟨a, b, rfl⟩
  have hi0 : i0 ∈ inputs op := by
    rw [hinsEq]
    exact List.mem_cons_self _ _
  unfold Pool.insert Pool.maybe_replace at hins
  cases hscan : Pool.conflictScan p.by_input op false (inputs op) [] with
  | none =>
      rw [hscan, Option.some.injEq] at hins
      subst hins
      unfold Pool.insert Pool.maybe_replace
      rw [hscan]
  | some reps =>
      rw [hscan] at hins
      simp only [] at hins
      cases hra : Pool.removeAll p reps with
      | none => rw [hra] at hins; cases hins
      | some p1 =>
          rw [hra] at hins
          simp only [] at hins
          obtain ⟨hs1, ha1, hn1⟩ := removeAll_WF hwf hra
          split at hins
          · rename_i hover
            cases hh : (gasPush (gas_price op) op p1.by_gas).head? with
            | none => rw [hh] at hins; cases hins
            | some kv =>
                rw [hh] at hins
                obtain ⟨k0, b0⟩ := kv
                simp only [] at hins
                cases hv : b0.head? with
                | none => rw [hv] at hins; cases hins
                | some v =>
                    rw [hv] at hins
                    by_cases hvop : v = op
                    · rw [hvop] at hins
                      unfold Pool.remove at hins
                      simp only [] at hins
                      cases hbiq : Pool.removeByInput op (inputs op)
                          (upsertAll op (inputs op) p1.by_input) with
                      | none => rw [hbiq] at hins; cases hins
                      | some biq =>
                          rw [hbiq] at hins
                          simp only [] at hins
                          cases hbk : gasFind (gas_price op)
                              (gasPush (gas_price op) op p1.by_gas) with
                          | none => rw [hbk] at hins; cases hins
                          | some bucket =>
                              rw [hbk] at hins
                              simp only [] at hins
                              split at hins
                              · split at hins
                                · cases hins
                                · rename_i hkeq hlen0
                                  have hnd2 :
                                      ((upsertAll op (inputs op) p1.by_input).map
                                        Prod.fst).Nodup :=
                                    nodup_keys_upsertAll hn1
                                  have hinsnd : (inputs op).Nodup :=
                                    removeByInput_ins_nodup hnd2 hbiq
                                  have hlook : ∀ i ∈ inputs op, findAssoc i biq = none :=
                                    removeByInput_lookup_none hnd2 hbiq
                                  obtain ⟨hbucket, hqgt⟩ :=
                                    evict_self_analysis p1 op k0 b0 bucket
                                      hs1 ha1 hh (hvop ▸ hv) hbk hkeq
                                  subst hbucket
                                  rw [show List.filter (fun e => decide (e ≠ op))
                                        ([op] : List α) = [] from by simp] at hins
                                  rw [show List.isEmpty ([] : List α) = true from rfl] at hins
                                  rw [if_pos rfl] at hins
                                  rw [Option.some.injEq] at hins
                                  subst hins
                                  have hfreshbiq : ∀ i ∈ inputs op,
                                      i ∉ biq.map Prod.fst :=
                                    fun i hi => findAssoc_eq_none_iff.mp (hlook i hi)
                                  unfold Pool.insert Pool.maybe_replace
                                  simp only []
                                  rw [conflictScan_all_none biq op false (inputs op) []
                                    (fun i hi => hlook i hi)]
                                  simp only []
                                  rw [Pool.removeAll]
                                  simp only []
                                  rw [if_pos (by omega)]
                                  rw [gasPush_lt hqgt]
                                  rw [List.head?_cons]
                                  simp only []
                                  rw [List.head?_cons]
                                  simp only []
                                  rw [upsertAll_fresh hinsnd hfreshbiq]
                                  rw [remove_min_suffix p1.max_len (p1.len + 1 - 1) op
                                    (gasEraseEntry (gas_price op)
                                      (gasPush (gas_price op) op p1.by_gas))
                                    biq hinsnd hfreshbiq]
                              · cases hins
                    · have hfp2 : findAssoc i0
                          (upsertAll op (inputs op) p1.by_input) = some op :=
                        upsertAll_lookup_self hi0
                      have hbiq := remove_some_by_input hins
                      simp only [] at hbiq
                      have hfq : findAssoc i0 q.by_input = some op :=
                        removeByInput_preserve_other hbiq hfp2 (fun he => hvop he.symm)
                      exact insert_noop_of_conflict q op op i0 hi0 hfq (le_refl _)
          · rw [Option.some.injEq] at hins
            subst hins
            exact insert_noop_of_conflict _ op op i0 hi0
              (upsertAll_lookup_self hi0) (le_refl _)

/-- Witness for C8: a one-input withdrawal inserted into the empty pool;
re-inserting it returns the pool unchanged. -/
theorem c8_witness :
    PoolWF (Pool.defaultPool Txn) ∧
    inputs c8wop ≠ [] ∧
    (Pool.defaultPool Txn).insert c8wop = some c8wpool ∧
    c8wpool.insert c8wop = some c8wpool := by
  have hwf : PoolWF (Pool.defaultPool Txn) :=
    ⟨List.Pairwise.nil, fun e he => absurd he (List.not_mem_nil e), List.nodup_nil⟩
  refine ⟨hwf, by decide, by decide, ?_⟩
  exact c8_insert_idempotent (Pool.defaultPool Txn) c8wpool c8wop hwf
    (by decide) (by decide)
